import Mathlib

/-!
# Verification of the post-tag evolution engine

Shallow embedding of the repository's two sequence representations:

* `VecDequeBools` — the naive representation (a deque of booleans), from
  `src/vec_deque_bools.rs`.
* `BitString` — the packed representation (a deque of 64-bit words plus
  `start`/`end` bit offsets and, in the `system` variant, a cached length),
  from `src/bitstring.rs` and `src/system/bitstring.rs`.

Machine words (`usize`, 64-bit) are modelled as `Nat` with explicit
`% 2 ^ 64` wherever Rust's wrapping shifts and rotations matter.  The cached
length field (`len: usize` in the `system` variant) is modelled as `Int`:
a negative value corresponds to a `usize` subtraction underflow in the Rust
code (a panic in debug builds, a wrap in release builds).  The derived
length of the uncached variant is modelled with `usize` wrap-around
semantics via `usizeOfInt`.

The generic default bodies of `PostSystem::evolve_multi` and
`PostSystem::evolve_preferred` (from `src/lib.rs`) are embedded as
functions generic over the state type, mirroring the trait's default
methods; Rust's `ControlFlow<()>` is a `Bool` (`true` = `Break`), and
`ControlFlow<usize>` is an `Option Nat` (`some k` = `Break(k)`).
-/

namespace PostTag

/-- `2 ^ 64`, the modulus of 64-bit machine words (`usize` on the bench target). -/
def M64 : Nat := 2 ^ 64

/-- `usize::MAX`. -/
def UMAX : Nat := 2 ^ 64 - 1

/-- `usize` wrap-around semantics for an `Int`-valued arithmetic expression:
the value of the corresponding Rust `usize` computation in release builds
(debug builds panic instead when the `Int` value is negative). -/
def usizeOfInt (z : Int) : Nat := (z % (2 ^ 64 : Int)).toNat

/-- `x.rotate_left(n)` on a 64-bit word (`x < 2 ^ 64`, rotation amount taken mod 64). -/
def rotl64 (x n : Nat) : Nat := ((x <<< (n % 64)) % M64) ||| (x >>> (64 - n % 64))

/-! ## The generic trait defaults of `src/lib.rs` -/

/-- The loop body of the default `PostSystem::evolve_preferred`
(`for i in 1..=T { ... }`, `src/lib.rs` lines 49–54), also reused by the
single-step fallback loop of `BitString::evolve_preferred`
(`src/bitstring.rs` lines 142–147): run `step` up to `fuel` times, counting
attempts from `i`; when `step` reports `Break` at attempt `i`, return
`Break(i)`. -/
def evolveLoopG {σ : Type} (step : σ → Bool × σ) : σ → Nat → Nat → Option Nat × σ
  | s, 0, _ => (none, s)
  | s, fuel + 1, i =>
    match step s with
    | (true, s1) => (some i, s1)
    | (false, s1) => evolveLoopG step s1 fuel (i + 1)

/-- The first loop of the default `PostSystem::evolve_multi`
(`src/lib.rs` lines 26–33): call `pref` `q` times, with `i` counting from 0;
on `Break(j)` return `Break(i * T + j)`. -/
def evolveMultiQ {σ : Type} (T : Nat) (pref : σ → Option Nat × σ) :
    σ → Nat → Nat → Option Nat × σ
  | s, 0, _ => (none, s)
  | s, q + 1, i =>
    match pref s with
    | (some j, s1) => (some (i * T + j), s1)
    | (none, s1) => evolveMultiQ T pref s1 q (i + 1)

/-- The second loop of the default `PostSystem::evolve_multi`
(`src/lib.rs` lines 35–40): call `step` `r` times, with `j` counting from 1;
on `Break` return `Break(base + j)` where `base = q * T`. -/
def evolveMultiR {σ : Type} (step : σ → Bool × σ) (base : Nat) :
    σ → Nat → Nat → Option Nat × σ
  | s, 0, _ => (none, s)
  | s, r + 1, j =>
    match step s with
    | (true, s1) => (some (base + j), s1)
    | (false, s1) => evolveMultiR step base s1 r (j + 1)

/-- The default `PostSystem::evolve_multi` (`src/lib.rs` lines 20–43),
generic over the representation: split `n` into `q = n / T` preferred-batch
calls and `r = n % T` single steps. -/
def evolveMultiG {σ : Type} (T : Nat) (pref : σ → Option Nat × σ)
    (step : σ → Bool × σ) (s : σ) (n : Nat) : Option Nat × σ :=
  match evolveMultiQ T pref s (n / T) 0 with
  | (some k, s1) => (some k, s1)
  | (none, s1) => evolveMultiR step (n / T * T) s1 (n % T) 1

/-! ## The naive representation, `src/vec_deque_bools.rs` -/

namespace VecDequeBools

/-- `VecDequeBools::new_decompressed`: each input boolean expands to `[b, 0, 0]`. -/
def new_decompressed (compressed : List Bool) : List Bool :=
  compressed.flatMap fun b => [b, false, false]

/-- `VecDequeBools::evolve` (`src/vec_deque_bools.rs` lines 21–32): three
`pop_front_or_break` calls followed by the production chosen by the first
popped symbol.  Note that the `?` operator returns `Break` with the
already-popped symbols lost, so a deque of length 1 or 2 is mutated to `[]`. -/
def evolve : List Bool → Bool × List Bool
  | [] => (true, [])
  | [_] => (true, [])
  | [_, _] => (true, [])
  | first :: _ :: _ :: rest =>
    (false, rest ++ match first with
      | false => [false, false]
      | true => [true, true, false, true])

/-- The default `evolve_preferred` instantiated for `VecDequeBools`
(`PREFERRED_TIMESTEP = 1`). -/
def evolve_preferred (s : List Bool) : Option Nat × List Bool :=
  evolveLoopG evolve s 1 1

/-- The default `evolve_multi` instantiated for `VecDequeBools`. -/
def evolve_multi (s : List Bool) (n : Nat) : Option Nat × List Bool :=
  evolveMultiG 1 evolve_preferred evolve s n

end VecDequeBools

/-! ## The packed representation -/

/-- The packed bit-string state shared by `src/bitstring.rs` and
`src/system/bitstring.rs`: a front-to-back list of 64-bit words, the offset
`start` of the first live bit in the first word, the offset `end` one past
the last live bit in the last word, and the cached bit length `len`
(present as a `usize` field only in the `system` variant; the other variant
derives the same quantity, see `BitString.length`).  `len` is an `Int` so
that a `usize` underflow shows up as a negative value. -/
structure BitString where
  words : List Nat
  start : Nat
  «end» : Nat
  len : Int
deriving DecidableEq

namespace BitString

/-- `BitString::new`: one all-zero word, `start = end = 0`. -/
def new : BitString := { words := [0], start := 0, «end» := 0, len := 0 }

/-- `BitString::length` of the uncached variant (`src/bitstring.rs` lines
29–31): `(words.len() - 1) * usize::BITS + end - start`, evaluated with
`usize` wrap-around semantics.  The `system` variant's `length()` returns
the cached `len` field directly. -/
def length (s : BitString) : Nat :=
  usizeOfInt (((s.words.length : Int) - 1) * 64 + (s.«end» : Int) - (s.start : Int))

/-- `BitString::append` (`src/bitstring.rs` lines 36–52, identically
`src/system/bitstring.rs` lines 35–53 plus `len += count`): rotate the
incoming `count`-bit word into position `end` of the last word, pushing an
overflow word when the write crosses the word boundary. -/
def append (s : BitString) (bits count : Nat) : BitString :=
  let rotated := rotl64 bits s.«end»
  let lowerMask := (UMAX <<< s.«end») % M64
  let upperMask := UMAX ^^^ lowerMask
  let words1 := s.words.dropLast ++ [s.words.getLastD 0 ||| (rotated &&& lowerMask)]
  let end1 := s.«end» + count
  if 64 ≤ end1 then
    { words := words1 ++ [rotated &&& upperMask], start := s.start,
      «end» := end1 % 64, len := s.len + count }
  else
    { words := words1, start := s.start, «end» := end1, len := s.len + count }

/-- `BitString::delete` (`src/bitstring.rs` lines 58–85, identically
`src/system/bitstring.rs` lines 59–90 plus `len -= count`): read `count`
bits from offset `start` of the first word; when the read crosses the word
boundary, pop the first word, collapse `end` onto `start` if a single short
word remains, reinstate one zero word if none remains, and stitch the
remainder from the new first word.  The source requires `0 < count < 64`
(`count = 0` or the `count = 64, start = 0` corner would overflow a shift
in Rust). -/
def delete (s : BitString) (count : Nat) : Nat × BitString :=
  let mask := UMAX >>> (64 - count)
  let lower := s.words.headD 0 >>> s.start
  let start1 := s.start + count
  if 64 ≤ start1 then
    let start2 := start1 % 64
    let words1 := s.words.tail
    let end1 := if words1.length ≤ 1 ∧ s.«end» < start2 then start2 else s.«end»
    let next := if words1 = [] then (([0] : List Nat), 0, 0) else (words1, start2, end1)
    let upper := (next.1.headD 0 <<< (count - next.2.1)) % M64
    ((lower ||| upper) &&& mask,
      { words := next.1, start := next.2.1, «end» := next.2.2, len := s.len - count })
  else
    (lower &&& mask, { s with start := start1, len := s.len - count })

/-- `BitString::new_decompressed` (`src/bitstring.rs` lines 89–103,
`src/system/bitstring.rs` lines 129–143): append `0b000` or `0b001` per
input boolean. -/
def new_decompressed (compressed : List Bool) : BitString :=
  compressed.foldl
    (fun this b => this.append (match b with | false => 0 | true => 1) 3) new

/-- `BitString::as_list` (`src/bitstring.rs` lines 105–120,
`src/system/bitstring.rs` lines 149–164): flatten every word into its 64
bits (least significant first), then pop `start` bits from the front and
`64 - end` bits from the back. -/
def as_list (s : BitString) : List Bool :=
  let list := s.words.flatMap fun word =>
    (List.range 64).map fun i => (word >>> i) &&& 1 == 1
  let list1 := list.drop s.start
  list1.take (list1.length - (64 - s.«end»))

/-- `BitString::evolve` of the `system` variant (`src/system/bitstring.rs`
lines 166–180), whose `length()` is the cached `len`: halt below length 3,
otherwise delete 3 bits and append the production selected by `deleted & 1`. -/
def evolve (s : BitString) : Bool × BitString :=
  if s.len < 3 then (true, s)
  else
    let d := s.delete 3
    if d.1 &&& 1 == 0 then (false, d.2.append 0 2)
    else (false, d.2.append 11 4)

/-- `BitString::evolve` of the uncached variant (`src/bitstring.rs` lines
122–136), identical except that the halt test reads the derived `length()`. -/
def evolveD (s : BitString) : Bool × BitString :=
  if length s < 3 then (true, s)
  else
    let d := s.delete 3
    if d.1 &&& 1 == 0 then (false, d.2.append 0 2)
    else (false, d.2.append 11 4)

/-- The body of one `LUT` entry (`src/bitstring.rs` lines 172–190,
`src/system/bitstring.rs` lines 207–225): for each of the `T` key bits,
append `[0,0]` (len += 2) or `[1,1,0,1]` (`bits |= 0b1011 << len`,
len += 4); the entry packs `bits` in the low 48 bits and `len` above them.
The `array::from_fn` table is modelled as this function of the key. -/
def lutEntry (T key : Nat) : Nat :=
  let bl := (List.range T).foldl
    (fun bl i =>
      if (key >>> i) &&& 1 == 1 then (bl.1 ||| (11 <<< bl.2), bl.2 + 4)
      else (bl.1, bl.2 + 2))
    ((0 : Nat), (0 : Nat))
  bl.1 ||| (bl.2 <<< 48)

/-- The key-extraction loop shared by both `evolve_preferred` overrides:
bit `i` of the key is bit `3 * i` of the deleted block. -/
def extractKey (T deleted : Nat) : Nat :=
  (List.range T).foldl (fun key i => key ||| (((deleted >>> (3 * i)) &&& 1) <<< i)) 0

/-- `BitString::evolve_preferred` of the uncached variant
(`src/bitstring.rs` lines 140–164), `PREFERRED_TIMESTEP = 10`: when the
derived length is below `3 * 10` run the single-step loop bounded by the
current length (`self.length() as u8`, hence the `% 256`), returning
`Break(i)` if a halt occurs; otherwise — including after the loop ran to
completion without halting — delete `30` bits, build the 10-bit key from
every third deleted bit, and append the looked-up production. -/
def evolve_preferred (s : BitString) : Option Nat × BitString :=
  let batch := fun (s : BitString) =>
    let d := s.delete (3 * 10)
    let key := extractKey 10 d.1
    let entry := lutEntry 10 key
    ((none : Option Nat), d.2.append (entry &&& 0xFFFFFFFFFFFF) (entry >>> 48))
  if length s < 3 * 10 then
    match evolveLoopG evolveD s (length s % 256) 1 with
    | (some i, s1) => (some i, s1)
    | (none, s1) => batch s1
  else batch s

/-- `BitString::evolve_preferred` of the `system` variant
(`src/system/bitstring.rs` lines 184–199), `PREFERRED_TIMESTEP = 11`:
requires `length() ≥ 3 * 11` (a `debug_assert`), deletes 33 bits, and
appends the table entry for the 11-bit key of leading bits. -/
def evolve_preferred11 (s : BitString) : BitString :=
  let d := s.delete (3 * 11)
  let key := extractKey 11 d.1
  let entry := lutEntry 11 key
  d.2.append (entry &&& 0xFFFFFFFFFFFF) (entry >>> 48)

/-- `PostSystem::evolve_multi` (`src/lib.rs` lines 20–43) instantiated for
the uncached `BitString` variant (`PREFERRED_TIMESTEP = 10`). -/
def evolve_multi (s : BitString) (n : Nat) : Option Nat × BitString :=
  evolveMultiG 10 evolve_preferred evolveD s n

/-- Apply single-step `evolve` (uncached variant) `n` times, ignoring the
halt flag; the reference behaviour against which batching is compared. -/
def iterEvolve : BitString → Nat → BitString
  | s, 0 => s
  | s, n + 1 => iterEvolve (evolveD s).2 n

/-- `impl PartialEq for BitString` — the word-comparison loop
(`src/system/bitstring.rs` lines 109–115): compare each pair of words after
rotating the first buffer's word by the start-offset difference, carrying
the rotated-out low bits into the next comparison; `none` on mismatch,
otherwise the final carry. -/
def eqLoop (offset : Nat) : List (Nat × Nat) → Nat → Option Nat
  | [], ov => some ov
  | (sw, ow) :: rest, ov =>
    let rotated := rotl64 sw offset
    let overflowMask := (1 <<< offset) - 1
    if ov ||| (rotated &&& (UMAX ^^^ overflowMask)) ≠ ow then none
    else eqLoop offset rest (rotated &&& overflowMask)

/-- The body of `PartialEq::eq` after the length short-circuit and the
orientation swap, for `a.start ≤ b.start` (`src/system/bitstring.rs`
lines 103–123). -/
def eqBody (a b : BitString) : Bool :=
  let offset := b.start - a.start
  let overflowMask := (1 <<< offset) - 1
  let overflowed := b.words.headD 0 &&& overflowMask
  match eqLoop offset (a.words.zip b.words) overflowed with
  | none => false
  | some ov =>
    !(decide (a.words.length < b.words.length) &&
      decide (b.words.getLastD 0 &&& overflowMask ≠ ov))

/-- `impl PartialEq for BitString` (`src/system/bitstring.rs` lines
93–125): unequal cached lengths short-circuit to `false`; the
`self.start > other.start` case recurses with the arguments swapped, which
is modelled by calling `eqBody` in the right orientation. -/
def eq (a b : BitString) : Bool :=
  if a.len ≠ b.len then false
  else if b.start < a.start then eqBody b a else eqBody a b

/-- Modelled from the spec: `evolve_multi` for the `system` packed variant
(`PREFERRED_TIMESTEP = 11`) is declared in the trait but its implementation
for this variant is not under `src/`; §4.2/§4.4 of the specification
describe it as advancing until `n` steps are taken or a halt occurs,
taking a batched step when at least 11 steps remain and the length allows
a safe 33-bit lookahead, otherwise a single step, and reporting the exact
number of steps applied at a halt.  The first `Nat` argument is an
iteration fuel (the remaining step count bounds the iteration count), the
second the remaining step count, the third the count of steps already
applied. -/
def sysEvolveMultiAux : BitString → Nat → Nat → Nat → Option Nat × BitString
  | s, 0, _, _ => (none, s)
  | s, fuel + 1, remaining, k =>
    if remaining = 0 then (none, s)
    else if 11 ≤ remaining ∧ (33 : Int) ≤ s.len then
      sysEvolveMultiAux (evolve_preferred11 s) fuel (remaining - 11) (k + 11)
    else
      match evolve s with
      | (true, s1) => (some k, s1)
      | (false, s1) => sysEvolveMultiAux s1 fuel (remaining - 1) (k + 1)

/-- Modelled from the spec: see `sysEvolveMultiAux`. -/
def sysEvolveMulti (s : BitString) (n : Nat) : Option Nat × BitString :=
  sysEvolveMultiAux s n n 0

end BitString

/-! ## Arithmetic facts about the 64-bit word operations -/

theorem and_two_pow_sub_one (x k : Nat) : x &&& (2 ^ k - 1) = x % 2 ^ k := by
  apply Nat.eq_of_testBit_eq
  intro i
  rw [Nat.testBit_land, Nat.testBit_two_pow_sub_one, Nat.testBit_mod_two_pow]
  by_cases h : i < k <;> simp [h]

theorem testBit_split {v : Nat} (b k i : Nat) (hv : v < 2 ^ k) :
    (v + b * 2 ^ k).testBit i = if i < k then v.testBit i else b.testBit (i - k) := by
  rcases Nat.lt_or_ge i k with h | h
  · rw [if_pos h, Nat.testBit_to_div_mod, Nat.testBit_to_div_mod]
    have h2 : b * 2 ^ k = b * 2 ^ (k - i - 1) * 2 * 2 ^ i := by
      rw [Nat.mul_assoc, Nat.mul_assoc, ← Nat.pow_succ', ← Nat.pow_add]
      congr 2
      omega
    rw [h2, Nat.add_mul_div_right _ _ (Nat.two_pow_pos i), Nat.add_mul_mod_self_right]
  · rw [if_neg (Nat.not_lt.mpr h), Nat.testBit_to_div_mod, Nat.testBit_to_div_mod]
    have h2 : 2 ^ i = 2 ^ k * 2 ^ (i - k) := by rw [← Nat.pow_add]; congr 1; omega
    rw [h2, ← Nat.div_div_eq_div_mul, Nat.mul_comm b,
      Nat.add_mul_div_left _ _ (Nat.two_pow_pos k), Nat.div_eq_of_lt hv, Nat.zero_add]

theorem lor_eq_add {a : Nat} (b k : Nat) (ha : a < 2 ^ k) :
    a ||| b * 2 ^ k = a + b * 2 ^ k := by
  apply Nat.eq_of_testBit_eq
  intro i
  rw [Nat.testBit_lor, testBit_split b k i ha, ← Nat.shiftLeft_eq, Nat.testBit_shiftLeft]
  rcases Nat.lt_or_ge i k with h | h
  · simp [h, Nat.not_le.mpr h]
  · have ha' : a.testBit i = false :=
      Nat.testBit_lt_two_pow (Nat.lt_of_lt_of_le ha (Nat.pow_le_pow_right (by norm_num) h))
    simp [Nat.not_lt.mpr h, h, ha']

theorem two_pow_sub_one_shiftRight (a b : Nat) : (2 ^ (a + b) - 1) >>> a = 2 ^ b - 1 := by
  rw [Nat.shiftRight_eq_div_pow]
  have h1 : 2 ^ (a + b) = 2 ^ a * 2 ^ b := Nat.pow_add 2 a b
  have h2 : (0 : Nat) < 2 ^ a := Nat.two_pow_pos a
  have h3 : (0 : Nat) < 2 ^ b := Nat.two_pow_pos b
  have h4 : (2 ^ b - 1) * 2 ^ a = 2 ^ (a + b) - 2 ^ a := by
    rw [Nat.sub_mul, Nat.one_mul, Nat.mul_comm, ← h1]
  have h5 : 2 ^ a ≤ 2 ^ (a + b) := Nat.pow_le_pow_right (by norm_num) (by omega)
  have h6 : 2 ^ (a + b) - 1 = (2 ^ a - 1) + (2 ^ b - 1) * 2 ^ a := by omega
  rw [h6, Nat.add_mul_div_right _ _ h2, Nat.div_eq_of_lt (by omega), Nat.zero_add]

theorem UMAX_shiftRight {k : Nat} (hk : k ≤ 64) : UMAX >>> (64 - k) = 2 ^ k - 1 := by
  have h : UMAX = 2 ^ ((64 - k) + k) - 1 := by
    unfold UMAX
    congr 2
    omega
  rw [h, two_pow_sub_one_shiftRight]

theorem UMAX_shiftLeft_mod {k : Nat} (hk : k ≤ 64) :
    (UMAX <<< k) % M64 = M64 - 2 ^ k := by
  have h2 : 2 ^ k ≤ M64 := Nat.pow_le_pow_right (by norm_num) hk
  have h3 : (0 : Nat) < 2 ^ k := Nat.two_pow_pos k
  have h : UMAX * 2 ^ k = (2 ^ k - 1) * M64 + (M64 - 2 ^ k) := by
    unfold UMAX M64
    unfold M64 at h2
    rw [Nat.sub_mul, Nat.one_mul, Nat.sub_mul, Nat.one_mul, Nat.mul_comm]
    omega
  rw [Nat.shiftLeft_eq, h, Nat.mul_comm (2 ^ k - 1), Nat.mul_add_mod,
    Nat.mod_eq_of_lt (by unfold M64; omega)]

theorem high_mask_eq_shiftLeft {k : Nat} (hk : k ≤ 64) :
    M64 - 2 ^ k = (2 ^ (64 - k) - 1) <<< k := by
  have h1 : 2 ^ (64 - k) * 2 ^ k = M64 := by rw [← Nat.pow_add]; unfold M64; congr 1; omega
  rw [Nat.shiftLeft_eq, Nat.sub_mul, Nat.one_mul, h1]

theorem UMAX_xor_low_mask {k : Nat} (hk : k ≤ 64) :
    UMAX ^^^ (2 ^ k - 1) = M64 - 2 ^ k := by
  apply Nat.eq_of_testBit_eq
  intro i
  have hU : UMAX.testBit i = decide (i < 64) := by
    unfold UMAX
    rw [Nat.testBit_two_pow_sub_one]
  rw [Nat.testBit_xor, high_mask_eq_shiftLeft hk, Nat.testBit_shiftLeft,
    Nat.testBit_two_pow_sub_one, Nat.testBit_two_pow_sub_one, hU]
  by_cases h1 : i < k
  · simp [h1, Nat.lt_of_lt_of_le h1 hk, Nat.not_le.mpr h1]
  · by_cases h2 : i < 64
    · simp [h1, h2, Nat.le_of_not_lt h1]
      omega
    · simp [h1, h2, Nat.le_of_not_lt h1]
      omega

theorem and_high_mask {x k : Nat} (hx : x < M64) (hk : k ≤ 64) :
    x &&& (M64 - 2 ^ k) = 2 ^ k * (x / 2 ^ k) := by
  apply Nat.eq_of_testBit_eq
  intro i
  have hdr : 2 ^ k * (x / 2 ^ k) = (x >>> k) <<< k := by
    rw [Nat.shiftLeft_eq, Nat.shiftRight_eq_div_pow, Nat.mul_comm]
  rw [Nat.testBit_land, high_mask_eq_shiftLeft hk, Nat.testBit_shiftLeft,
    Nat.testBit_two_pow_sub_one, hdr, Nat.testBit_shiftLeft, Nat.testBit_shiftRight]
  rcases Nat.lt_or_ge i k with h | h
  · simp [Nat.not_le.mpr h]
  · have h2 : k + (i - k) = i := by omega
    rw [h2]
    rcases Nat.lt_or_ge i 64 with h3 | h3
    · simp [h, h3, show i - k < 64 - k by omega]
    · have hfalse : x.testBit i = false :=
        Nat.testBit_lt_two_pow
          (Nat.lt_of_lt_of_le hx (Nat.pow_le_pow_right (by norm_num) h3))
      simp [hfalse]

theorem rotl64_eq {x k : Nat} (hx : x < M64) (hk : k < 64) :
    rotl64 x k = (x % 2 ^ (64 - k)) * 2 ^ k + x / 2 ^ (64 - k) := by
  have hkk : k % 64 = k := Nat.mod_eq_of_lt hk
  have hq : 2 ^ (64 - k) * 2 ^ k = M64 := by rw [← Nat.pow_add]; unfold M64; congr 1; omega
  have h1 : (x <<< k) % M64 = (x % 2 ^ (64 - k)) * 2 ^ k := by
    rw [Nat.shiftLeft_eq, ← hq, Nat.mul_mod_mul_right]
  have h2 : x / 2 ^ (64 - k) < 2 ^ k := by
    rw [Nat.div_lt_iff_lt_mul (Nat.two_pow_pos _), Nat.mul_comm, hq]
    exact hx
  unfold rotl64
  rw [hkk, h1, Nat.lor_comm, Nat.shiftRight_eq_div_pow, lor_eq_add _ _ h2, Nat.add_comm]

/-! ## The numeric abstraction of a packed buffer -/

/-- The value of a word list as a little-endian base-`2 ^ 64` number. -/
def wordsVal : List Nat → Nat
  | [] => 0
  | w :: ws => w + M64 * wordsVal ws

theorem wordsVal_append (xs ys : List Nat) :
    wordsVal (xs ++ ys) = wordsVal xs + M64 ^ xs.length * wordsVal ys := by
  induction xs with
  | nil => simp [wordsVal]
  | cons x xs ih =>
    simp only [List.cons_append, wordsVal, List.append_eq, ih, List.length_cons]
    ring

theorem wordsVal_lt {ws : List Nat} (h : ∀ w ∈ ws, w < M64) :
    wordsVal ws < M64 ^ ws.length := by
  induction ws with
  | nil => simp [wordsVal]
  | cons w ws ih =>
    have h1 : w < M64 := h w (by simp)
    have h2 : wordsVal ws < M64 ^ ws.length := ih fun x hx => h x (by simp [hx])
    simp only [wordsVal, List.length_cons, pow_succ]
    calc w + M64 * wordsVal ws < M64 + M64 * wordsVal ws := by omega
    _ = M64 * (1 + wordsVal ws) := by ring
    _ ≤ M64 * M64 ^ ws.length := by
        apply Nat.mul_le_mul_left
        omega
    _ = M64 ^ ws.length * M64 := by ring

theorem wordsVal_concat (xs : List Nat) (a : Nat) :
    wordsVal (xs ++ [a]) = wordsVal xs + M64 ^ xs.length * a := by
  rw [wordsVal_append]
  simp [wordsVal]

theorem wordsVal_concat2 (xs : List Nat) (a b : Nat) :
    wordsVal ((xs ++ [a]) ++ [b]) =
      wordsVal xs + M64 ^ xs.length * a + M64 ^ xs.length * (M64 * b) := by
  rw [wordsVal_concat, wordsVal_concat]
  have hlen : (xs ++ [a]).length = xs.length + 1 := by simp
  rw [hlen, pow_succ]
  ring

theorem getLastD_irrel {l : List Nat} (h : l ≠ []) (a b : Nat) :
    l.getLastD a = l.getLastD b := by
  induction l generalizing a b with
  | nil => exact absurd rfl h
  | cons x t ih =>
    cases t with
    | nil => rfl
    | cons y u => simp only [List.getLastD_cons]

theorem dropLast_append_getLastD {l : List Nat} (h : l ≠ []) :
    l.dropLast ++ [l.getLastD 0] = l := by
  have h1 := List.dropLast_append_getLast h
  have h2 : l.getLastD 0 = l.getLast h := by
    rw [List.getLastD_eq_getLast?, List.getLast?_eq_getLast l h]
    rfl
  rw [h2, h1]

namespace BitString

/-- The number of live bits of a well-formed packed buffer:
`(wordCount - 1) * 64 + end - start`. -/
def nbits (s : BitString) : Nat := 64 * (s.words.length - 1) + s.«end» - s.start

/-- The live bit content of a packed buffer as a single natural number
(bit `i` of `val s` is the `i`-th live bit). -/
def val (s : BitString) : Nat := wordsVal s.words >>> s.start

/-- Well-formedness of a packed buffer: the word list is never empty, the
offsets are in `[0, 64)`, every word fits in 64 bits, the bits of the last
word at and above `end` are zero, a single word has `start ≤ end`, and the
cached length agrees with the derived live-bit count. -/
def WF (s : BitString) : Prop :=
  s.words ≠ [] ∧ s.start < 64 ∧ s.«end» < 64 ∧ (∀ w ∈ s.words, w < M64) ∧
  s.words.getLastD 0 < 2 ^ s.«end» ∧ (s.words.length = 1 → s.start ≤ s.«end») ∧
  s.len = ((s.words.length : Int) - 1) * 64 + (s.«end» : Int) - (s.start : Int)

instance (s : BitString) : Decidable (WF s) := by
  unfold WF
  infer_instance

theorem WF.start_le {s : BitString} (h : WF s) :
    s.start ≤ 64 * (s.words.length - 1) + s.«end» := by
  have h1 : s.words ≠ [] := h.1
  have hpos : 0 < s.words.length := List.length_pos.mpr h1
  rcases Nat.lt_or_ge s.words.length 2 with hl | hl
  · have hone : s.words.length = 1 := by omega
    have h6 := h.2.2.2.2.2.1 hone
    omega
  · have h2 := h.2.1
    omega

theorem WF.len_eq_nbits {s : BitString} (h : WF s) : s.len = (nbits s : Nat) := by
  have h1 := h.start_le
  have h7 := h.2.2.2.2.2.2
  have hlen : 0 < s.words.length := List.length_pos.mpr h.1
  unfold nbits
  rw [h7]
  omega

theorem wordsVal_lt_of_WF {s : BitString} (h : WF s) :
    wordsVal s.words < 2 ^ (64 * (s.words.length - 1) + s.«end») := by
  obtain ⟨h1, h2, h3, h4, h5, h6, h7⟩ := h
  have hdec := dropLast_append_getLastD h1
  have hlast : s.words.getLastD 0 < 2 ^ s.«end» := h5
  have hlen : s.words.dropLast.length = s.words.length - 1 := by
    simp [List.length_dropLast]
  calc wordsVal s.words = wordsVal (s.words.dropLast ++ [s.words.getLastD 0]) := by
        rw [hdec]
  _ = wordsVal s.words.dropLast + M64 ^ s.words.dropLast.length * wordsVal [s.words.getLastD 0] := by
        rw [wordsVal_append]
  _ < 2 ^ (64 * (s.words.length - 1) + s.«end») := by
        have hd : wordsVal s.words.dropLast < M64 ^ s.words.dropLast.length := by
          apply wordsVal_lt
          intro w hw
          exact h4 w (List.mem_of_mem_dropLast hw)
        have hval : wordsVal [s.words.getLastD 0] = s.words.getLastD 0 := by
          simp [wordsVal]
        rw [hval, hlen] at *
        have hpow : M64 ^ (s.words.length - 1) * 2 ^ s.«end» =
            2 ^ (64 * (s.words.length - 1) + s.«end») := by
          unfold M64
          rw [← Nat.pow_mul, ← Nat.pow_add]
        calc wordsVal s.words.dropLast + M64 ^ (s.words.length - 1) * s.words.getLastD 0
            < M64 ^ (s.words.length - 1) + M64 ^ (s.words.length - 1) * s.words.getLastD 0 := by
              omega
        _ = M64 ^ (s.words.length - 1) * (1 + s.words.getLastD 0) := by ring
        _ ≤ M64 ^ (s.words.length - 1) * 2 ^ s.«end» := by
              apply Nat.mul_le_mul_left
              omega
        _ = 2 ^ (64 * (s.words.length - 1) + s.«end») := hpow

end BitString

/-! ## Bit lists of natural numbers -/

/-- The list of the low `k` bits of `v`, least significant first. -/
def natToList (v k : Nat) : List Bool := (List.range k).map v.testBit

theorem natToList_length (v k : Nat) : (natToList v k).length = k := by
  simp [natToList]

theorem natToList_add {v : Nat} (b k c : Nat) (hv : v < 2 ^ k) :
    natToList (v + b * 2 ^ k) (k + c) = natToList v k ++ natToList b c := by
  unfold natToList
  rw [List.range_add, List.map_append]
  congr 1
  · apply List.map_congr_left
    intro i hi
    rw [List.mem_range] at hi
    rw [testBit_split b k i hv, if_pos hi]
  · rw [List.map_map]
    apply List.map_congr_left
    intro i hi
    simp only [Function.comp_apply]
    rw [testBit_split b k (k + i) hv, if_neg (by omega), Nat.add_sub_cancel_left]

theorem natToList_mod (v k : Nat) : natToList (v % 2 ^ k) k = natToList v k := by
  unfold natToList
  apply List.map_congr_left
  intro i hi
  rw [List.mem_range] at hi
  rw [Nat.testBit_mod_two_pow]
  simp [hi]

theorem natToList_take {v k c : Nat} (h : c ≤ k) :
    (natToList v k).take c = natToList v c := by
  unfold natToList
  rw [← List.map_take, List.take_range, Nat.min_eq_left h]

theorem natToList_drop (v k c : Nat) (h : c ≤ k) :
    (natToList v k).drop c = natToList (v >>> c) (k - c) := by
  obtain ⟨d, rfl⟩ : ∃ d, k = c + d := ⟨k - c, by omega⟩
  unfold natToList
  rw [Nat.add_sub_cancel_left, List.range_add, List.map_append, List.drop_left' (by simp),
    List.map_map]
  apply List.map_congr_left
  intro i hi
  simp only [Function.comp_apply]
  rw [Nat.testBit_shiftRight]

theorem wordBit_eq_testBit (w i : Nat) : ((w >>> i) &&& 1 == 1) = w.testBit i := by
  rw [Nat.and_one_is_mod, Nat.shiftRight_eq_div_pow, Nat.testBit_to_div_mod]
  rcases Nat.mod_two_eq_zero_or_one (w / 2 ^ i) with h | h <;> simp [h]

theorem flatMap_wordBits {ws : List Nat} (h : ∀ w ∈ ws, w < M64) :
    (ws.flatMap fun word => (List.range 64).map fun i => (word >>> i) &&& 1 == 1) =
      natToList (wordsVal ws) (64 * ws.length) := by
  induction ws with
  | nil => simp [natToList]
  | cons w ws ih =>
    have hw : w < M64 := h w (by simp)
    have hws : ∀ x ∈ ws, x < M64 := fun x hx => h x (by simp [hx])
    rw [List.flatMap_cons, ih hws]
    have hbit : (List.range 64).map (fun i => (w >>> i) &&& 1 == 1) = natToList w 64 := by
      unfold natToList
      apply List.map_congr_left
      intro i _
      exact wordBit_eq_testBit w i
    rw [hbit]
    have h2 : wordsVal (w :: ws) = w + wordsVal ws * 2 ^ 64 := by
      show w + M64 * wordsVal ws = w + wordsVal ws * 2 ^ 64
      unfold M64
      ring
    have h3 : 64 * (w :: ws).length = 64 + 64 * ws.length := by
      simp [List.length_cons]
      ring
    rw [h2, h3, natToList_add _ _ _ (show w < 2 ^ 64 from hw)]

namespace BitString

theorem val_lt {s : BitString} (h : WF s) : val s < 2 ^ nbits s := by
  have h1 := wordsVal_lt_of_WF h
  have h2 := h.start_le
  unfold val nbits
  rw [Nat.shiftRight_eq_div_pow, Nat.div_lt_iff_lt_mul (Nat.two_pow_pos _), ← Nat.pow_add]
  calc wordsVal s.words < 2 ^ (64 * (s.words.length - 1) + s.«end») := h1
  _ ≤ 2 ^ (64 * (s.words.length - 1) + s.«end» - s.start + s.start) := by
      apply Nat.pow_le_pow_right (by norm_num)
      omega

/-- The materialized list of a well-formed buffer is exactly the bit list of
its numeric value. -/
theorem as_list_eq {s : BitString} (h : WF s) :
    s.as_list = natToList (val s) (nbits s) := by
  have hsl := h.start_le
  obtain ⟨h1, h2, h3, h4, h5, h6, h7⟩ := h
  have hn : 0 < s.words.length := List.length_pos.mpr h1
  have hstep : s.as_list =
      ((s.words.flatMap fun word => (List.range 64).map fun i => (word >>> i) &&& 1 == 1).drop
          s.start).take
        (((s.words.flatMap fun word =>
            (List.range 64).map fun i => (word >>> i) &&& 1 == 1).drop s.start).length -
          (64 - s.«end»)) := rfl
  rw [hstep, flatMap_wordBits h4,
    natToList_drop _ _ _ (show s.start ≤ 64 * s.words.length by omega), natToList_length]
  have harith : 64 * s.words.length - s.start - (64 - s.«end») = nbits s := by
    unfold nbits
    omega
  rw [harith, natToList_take (by unfold nbits; omega)]
  rfl

/-- Correctness of `BitString::append` on a well-formed buffer with
`count ≤ 64` and `bits < 2 ^ count`: well-formedness is preserved, `start`
is unchanged, the cached length grows by `count`, and the numeric content
gains `bits` above the existing `nbits` live bits. -/
theorem append_spec {s : BitString} (bits count : Nat) (h : WF s)
    (hc : count ≤ 64) (hb : bits < 2 ^ count) :
    WF (s.append bits count) ∧
    (s.append bits count).start = s.start ∧
    (s.append bits count).len = s.len + count ∧
    nbits (s.append bits count) = nbits s + count ∧
    val (s.append bits count) = val s + bits * 2 ^ nbits s := by
  have hsl := h.start_le
  obtain ⟨h1, h2, h3, h4, h5, h6, h7⟩ := h
  have hn1 : 0 < s.words.length := List.length_pos.mpr h1
  have hdec : s.words.dropLast ++ [s.words.getLastD 0] = s.words := dropLast_append_getLastD h1
  have hxslen : s.words.dropLast.length = s.words.length - 1 := List.length_dropLast s.words
  have hwlt : s.words.getLastD 0 < M64 :=
    h4 _ (by rw [← hdec]; exact List.mem_append_right _ (by simp))
  have hbM : bits < M64 := lt_of_lt_of_le hb (Nat.pow_le_pow_right (by norm_num) hc)
  have hq0 : (0 : Nat) < 2 ^ (64 - s.«end») := Nat.two_pow_pos _
  have hqe : 2 ^ (64 - s.«end») * 2 ^ s.«end» = M64 := by
    rw [← Nat.pow_add]
    unfold M64
    congr 1
    omega
  have hrot : rotl64 bits s.«end» =
      (bits % 2 ^ (64 - s.«end»)) * 2 ^ s.«end» + bits / 2 ^ (64 - s.«end») := rotl64_eq hbM h3
  have hdivlt : bits / 2 ^ (64 - s.«end») < 2 ^ s.«end» := by
    rw [Nat.div_lt_iff_lt_mul hq0, Nat.mul_comm, hqe]
    exact hbM
  have hmodlt : bits % 2 ^ (64 - s.«end») < 2 ^ (64 - s.«end») := Nat.mod_lt bits hq0
  have hrotlt : rotl64 bits s.«end» < M64 := by
    rw [hrot]
    calc (bits % 2 ^ (64 - s.«end»)) * 2 ^ s.«end» + bits / 2 ^ (64 - s.«end»)
        < (bits % 2 ^ (64 - s.«end»)) * 2 ^ s.«end» + 2 ^ s.«end» := by omega
    _ = (bits % 2 ^ (64 - s.«end») + 1) * 2 ^ s.«end» := by ring
    _ ≤ 2 ^ (64 - s.«end») * 2 ^ s.«end» := Nat.mul_le_mul_right _ (by omega)
    _ = M64 := hqe
  have hlowmask : (UMAX <<< s.«end») % M64 = M64 - 2 ^ s.«end» :=
    UMAX_shiftLeft_mod (by omega)
  have handlow : rotl64 bits s.«end» &&& (M64 - 2 ^ s.«end») =
      (bits % 2 ^ (64 - s.«end»)) * 2 ^ s.«end» := by
    rw [and_high_mask hrotlt (by omega), hrot, Nat.add_comm,
      Nat.add_mul_div_right _ _ (Nat.two_pow_pos s.«end»), Nat.div_eq_of_lt hdivlt,
      Nat.zero_add]
    exact Nat.mul_comm _ _
  have hupmask : UMAX ^^^ (M64 - 2 ^ s.«end») = 2 ^ s.«end» - 1 := by
    rw [← UMAX_xor_low_mask (show s.«end» ≤ 64 by omega), ← Nat.xor_assoc, Nat.xor_self,
      Nat.zero_xor]
  have handup : rotl64 bits s.«end» &&& (2 ^ s.«end» - 1) = bits / 2 ^ (64 - s.«end») := by
    rw [and_two_pow_sub_one, hrot, Nat.add_comm, Nat.add_mul_mod_self_right,
      Nat.mod_eq_of_lt hdivlt]
  have hlorw : s.words.getLastD 0 ||| (bits % 2 ^ (64 - s.«end»)) * 2 ^ s.«end» =
      s.words.getLastD 0 + (bits % 2 ^ (64 - s.«end»)) * 2 ^ s.«end» := lor_eq_add _ _ h5
  have hXval : wordsVal s.words =
      wordsVal s.words.dropLast + M64 ^ (s.words.length - 1) * s.words.getLastD 0 := by
    conv_lhs => rw [← hdec]
    rw [wordsVal_append, hxslen]
    simp [wordsVal]
  have hpowsplit : (2 : Nat) ^ (64 * (s.words.length - 1) + s.«end») =
      2 ^ nbits s * 2 ^ s.start := by
    rw [← Nat.pow_add]
    congr 1
    unfold nbits
    omega
  have hMpow : M64 ^ (s.words.length - 1) = 2 ^ (64 * (s.words.length - 1)) := by
    unfold M64
    rw [← Nat.pow_mul]
  have hvalkey : ∀ W : List Nat,
      wordsVal W = wordsVal s.words + bits * 2 ^ (64 * (s.words.length - 1) + s.«end») →
      wordsVal W >>> s.start = val s + bits * 2 ^ nbits s := by
    intro W hW
    rw [Nat.shiftRight_eq_div_pow, hW, hpowsplit, ← Nat.mul_assoc,
      Nat.add_mul_div_right _ _ (Nat.two_pow_pos s.start)]
    unfold val
    rw [Nat.shiftRight_eq_div_pow]
  by_cases hcase : 64 ≤ s.«end» + count
  · -- crossing append: a new overflow word is pushed
    have hout : s.append bits count =
        { words := (s.words.dropLast ++
              [s.words.getLastD 0 + (bits % 2 ^ (64 - s.«end»)) * 2 ^ s.«end»]) ++
              [bits / 2 ^ (64 - s.«end»)],
          start := s.start, «end» := (s.«end» + count) % 64, len := s.len + count } := by
      simp only [append]
      rw [if_pos hcase, hlowmask, hupmask, handlow, handup, hlorw]
    have hend2 : (s.«end» + count) % 64 = s.«end» + count - 64 := by omega
    have hmidlt : s.words.getLastD 0 + (bits % 2 ^ (64 - s.«end»)) * 2 ^ s.«end» < M64 := by
      have hstep : (bits % 2 ^ (64 - s.«end»)) * 2 ^ s.«end» ≤
          (2 ^ (64 - s.«end») - 1) * 2 ^ s.«end» := Nat.mul_le_mul_right _ (by omega)
      have hq1 : (2 ^ (64 - s.«end») - 1) * 2 ^ s.«end» = M64 - 2 ^ s.«end» := by
        rw [Nat.sub_mul, Nat.one_mul, hqe]
      have h2e : (0:Nat) < 2 ^ s.«end» := Nat.two_pow_pos _
      omega
    have hlastlt : bits / 2 ^ (64 - s.«end») < 2 ^ (s.«end» + count - 64) := by
      rw [Nat.div_lt_iff_lt_mul hq0, ← Nat.pow_add]
      calc bits < 2 ^ count := hb
      _ ≤ 2 ^ (s.«end» + count - 64 + (64 - s.«end»)) :=
          Nat.pow_le_pow_right (by norm_num) (by omega)
    have hwordsval : wordsVal ((s.words.dropLast ++
          [s.words.getLastD 0 + (bits % 2 ^ (64 - s.«end»)) * 2 ^ s.«end»]) ++
          [bits / 2 ^ (64 - s.«end»)]) =
        wordsVal s.words + bits * 2 ^ (64 * (s.words.length - 1) + s.«end») := by
      rw [wordsVal_concat2, hxslen, hXval]
      have hinner : (bits % 2 ^ (64 - s.«end»)) * 2 ^ s.«end» +
          M64 * (bits / 2 ^ (64 - s.«end»)) = bits * 2 ^ s.«end» := by
        rw [← hqe]
        calc (bits % 2 ^ (64 - s.«end»)) * 2 ^ s.«end» +
            2 ^ (64 - s.«end») * 2 ^ s.«end» * (bits / 2 ^ (64 - s.«end»))
            = (bits % 2 ^ (64 - s.«end») +
              2 ^ (64 - s.«end») * (bits / 2 ^ (64 - s.«end»))) * 2 ^ s.«end» := by ring
        _ = bits * 2 ^ s.«end» := by rw [Nat.mod_add_div]
      calc wordsVal s.words.dropLast +
          M64 ^ (s.words.length - 1) *
            (s.words.getLastD 0 + (bits % 2 ^ (64 - s.«end»)) * 2 ^ s.«end») +
          M64 ^ (s.words.length - 1) * (M64 * (bits / 2 ^ (64 - s.«end»)))
          = wordsVal s.words.dropLast + M64 ^ (s.words.length - 1) * s.words.getLastD 0 +
            M64 ^ (s.words.length - 1) *
              ((bits % 2 ^ (64 - s.«end»)) * 2 ^ s.«end» +
                M64 * (bits / 2 ^ (64 - s.«end»))) := by ring
      _ = wordsVal s.words.dropLast + M64 ^ (s.words.length - 1) * s.words.getLastD 0 +
            M64 ^ (s.words.length - 1) * (bits * 2 ^ s.«end») := by rw [hinner]
      _ = wordsVal s.words.dropLast + M64 ^ (s.words.length - 1) * s.words.getLastD 0 +
            bits * 2 ^ (64 * (s.words.length - 1) + s.«end») := by
          rw [hMpow, Nat.pow_add]
          ring
    rw [hout]
    refine ⟨⟨by simp, h2, by show (s.«end» + count) % 64 < 64; omega, ?_, ?_, ?_, ?_⟩,
      rfl, rfl, ?_, ?_⟩
    · intro w hw
      simp only [List.mem_append, List.mem_singleton] at hw
      rcases hw with (hw | hw) | hw
      · exact h4 w (List.mem_of_mem_dropLast hw)
      · rw [hw]; exact hmidlt
      · rw [hw]
        calc bits / 2 ^ (64 - s.«end») < 2 ^ (s.«end» + count - 64) := hlastlt
        _ ≤ M64 := by
            unfold M64
            exact Nat.pow_le_pow_right (by norm_num) (by omega)
    · show (_ ++ [bits / 2 ^ (64 - s.«end»)]).getLastD 0 < _
      rw [List.getLastD_concat, hend2]
      exact hlastlt
    · intro habs
      simp only [List.length_append, List.length_cons, List.length_nil] at habs
      omega
    · show s.len + (count : Int) = _
      simp only [List.length_append, List.length_cons, List.length_nil, hxslen, hend2]
      rw [h7]
      push_cast
      omega
    · show nbits _ = _
      unfold nbits
      simp only [List.length_append, List.length_cons, List.length_nil, hxslen, hend2]
      omega
    · exact hvalkey _ hwordsval
  · -- in-word append: no new word
    have hsmall : bits < 2 ^ (64 - s.«end») :=
      lt_of_lt_of_le hb (Nat.pow_le_pow_right (by norm_num) (by omega))
    have hmodbits : bits % 2 ^ (64 - s.«end») = bits := Nat.mod_eq_of_lt hsmall
    have hdivbits : bits / 2 ^ (64 - s.«end») = 0 := Nat.div_eq_of_lt hsmall
    have hout : s.append bits count =
        { words := s.words.dropLast ++ [s.words.getLastD 0 + bits * 2 ^ s.«end»],
          start := s.start, «end» := s.«end» + count, len := s.len + count } := by
      simp only [append]
      rw [if_neg hcase, hlowmask, handlow, hlorw, hmodbits]
    have hnewlast : s.words.getLastD 0 + bits * 2 ^ s.«end» < 2 ^ (s.«end» + count) := by
      have hb2 : bits * 2 ^ s.«end» ≤ (2 ^ count - 1) * 2 ^ s.«end» :=
        Nat.mul_le_mul_right _ (by omega)
      have hc2 : (2 ^ count - 1) * 2 ^ s.«end» = 2 ^ (s.«end» + count) - 2 ^ s.«end» := by
        rw [Nat.sub_mul, Nat.one_mul, ← Nat.pow_add, Nat.add_comm]
      have h2e : (0:Nat) < 2 ^ s.«end» := Nat.two_pow_pos _
      have h2ec : 2 ^ s.«end» ≤ 2 ^ (s.«end» + count) :=
        Nat.pow_le_pow_right (by norm_num) (by omega)
      omega
    have hwordsval : wordsVal (s.words.dropLast ++
          [s.words.getLastD 0 + bits * 2 ^ s.«end»]) =
        wordsVal s.words + bits * 2 ^ (64 * (s.words.length - 1) + s.«end») := by
      rw [wordsVal_concat, hxslen, hXval, hMpow, Nat.pow_add]
      ring
    rw [hout]
    refine ⟨⟨by simp, h2, by show s.«end» + count < 64; omega, ?_, ?_, ?_, ?_⟩,
      rfl, rfl, ?_, ?_⟩
    · intro w hw
      simp only [List.mem_append, List.mem_singleton] at hw
      rcases hw with hw | hw
      · exact h4 w (List.mem_of_mem_dropLast hw)
      · rw [hw]
        calc s.words.getLastD 0 + bits * 2 ^ s.«end» < 2 ^ (s.«end» + count) := hnewlast
        _ ≤ M64 := by
            unfold M64
            exact Nat.pow_le_pow_right (by norm_num) (by omega)
    · show (_ ++ [_]).getLastD 0 < _
      rw [List.getLastD_concat]
      exact hnewlast
    · intro hone
      simp only [List.length_append, List.length_cons, List.length_nil, hxslen] at hone
      have hn2 : s.words.length = 1 := by omega
      have := h6 hn2
      show s.start ≤ s.«end» + count
      omega
    · show s.len + (count : Int) = _
      simp only [List.length_append, List.length_cons, List.length_nil, hxslen]
      rw [h7]
      push_cast
      omega
    · show nbits _ = _
      unfold nbits
      simp only [List.length_append, List.length_cons, List.length_nil, hxslen]
      omega
    · exact hvalkey _ hwordsval

theorem nbits_mk (ws : List Nat) (st e : Nat) (l : Int) :
    nbits ⟨ws, st, e, l⟩ = 64 * (ws.length - 1) + e - st := rfl

theorem val_mk (ws : List Nat) (st e : Nat) (l : Int) :
    val ⟨ws, st, e, l⟩ = wordsVal ws >>> st := rfl

/-- Correctness of `BitString::delete` on a well-formed buffer under the
caller-side preconditions `0 < count < 64` and `count ≤ nbits`:
well-formedness is preserved, the cached length shrinks by `count`, the
returned word is the deleted low `count` bits, and the numeric content is
shifted down by `count` bits. -/
theorem delete_spec {s : BitString} (count : Nat) (h : WF s) (h0 : 0 < count)
    (hc : count < 64) (hlen : count ≤ nbits s) :
    WF (s.delete count).2 ∧
    (s.delete count).2.len = s.len - count ∧
    nbits (s.delete count).2 = nbits s - count ∧
    val (s.delete count).2 = val s / 2 ^ count ∧
    (s.delete count).1 = val s % 2 ^ count := by
  have hsl := h.start_le
  obtain ⟨h1, h2, h3, h4, h5, h6, h7⟩ := h
  have hn1 : 0 < s.words.length := List.length_pos.mpr h1
  obtain ⟨w0, rest, hw⟩ : ∃ w0 rest, s.words = w0 :: rest := by
    cases hws : s.words with
    | nil => exact absurd hws h1
    | cons a t => exact ⟨a, t, rfl⟩
  have hmask : UMAX >>> (64 - count) = 2 ^ count - 1 := UMAX_shiftRight (by omega)
  have hw0lt : w0 < M64 := h4 w0 (by rw [hw]; simp)
  have hnb : nbits s = 64 * (s.words.length - 1) + s.«end» - s.start := rfl
  have hlenN : count ≤ 64 * (s.words.length - 1) + s.«end» - s.start := by
    rw [← hnb]
    exact hlen
  have hMsplit : (2 : Nat) ^ (64 - s.start) * 2 ^ s.start = M64 := by
    rw [← Nat.pow_add]
    unfold M64
    congr 1
    omega
  have hval : val s = w0 / 2 ^ s.start + wordsVal rest * 2 ^ (64 - s.start) := by
    unfold val
    rw [hw, Nat.shiftRight_eq_div_pow]
    show (w0 + M64 * wordsVal rest) / 2 ^ s.start = _
    rw [show M64 * wordsVal rest = wordsVal rest * 2 ^ (64 - s.start) * 2 ^ s.start by
        rw [← hMsplit]; ring,
      Nat.add_mul_div_right _ _ (Nat.two_pow_pos s.start)]
  by_cases hcase : 64 ≤ s.start + count
  · -- the read crosses the word boundary: the first word is popped
    have hrestne : rest ≠ [] := by
      intro habs
      have hlen1 : s.words.length = 1 := by rw [hw, habs]; rfl
      have h6x := h6 hlen1
      rw [hlen1] at hlenN
      omega
    obtain ⟨w1, rest2, hr⟩ : ∃ w1 rest2, rest = w1 :: rest2 := by
      cases hrs : rest with
      | nil => exact absurd hrs hrestne
      | cons a t => exact ⟨a, t, rfl⟩
    have hw1lt : w1 < M64 := h4 w1 (by rw [hw, hr]; simp)
    have hstart2 : (s.start + count) % 64 = s.start + count - 64 := by omega
    have hlen_words : s.words.length = rest2.length + 2 := by
      rw [hw, hr]
      simp
    have hcollapse : ¬(rest.length ≤ 1 ∧ s.«end» < s.start + count - 64) := by
      rintro ⟨hl1, hl2⟩
      rw [hr] at hl1
      simp only [List.length_cons] at hl1
      rw [hlen_words] at hlenN
      omega
    have hshift : count - (s.start + count - 64) = 64 - s.start := by omega
    have hout : s.delete count =
        ((w0 >>> s.start ||| (w1 <<< (64 - s.start)) % M64) &&& (2 ^ count - 1),
         { words := w1 :: rest2, start := s.start + count - 64, «end» := s.«end»,
           len := s.len - count }) := by
      simp only [delete]
      rw [hmask, if_pos hcase, hw]
      simp only [List.tail_cons, List.headD_cons]
      rw [hstart2, if_neg (by rw [hr]; simp : ¬(rest = [])), if_neg hcollapse, hshift, hr]
      rfl
    rw [hout]
    refine ⟨⟨by simp, by show s.start + count - 64 < 64; omega, h3, ?_, ?_, ?_, ?_⟩,
      rfl, ?_, ?_, ?_⟩
    · intro w hw2
      exact h4 w (by rw [hw, hr]; exact List.mem_cons_of_mem _ hw2)
    · show (w1 :: rest2).getLastD 0 < 2 ^ s.«end»
      have h5x := h5
      rw [hw, hr, List.getLastD_cons, getLastD_irrel (by simp) w0 0] at h5x
      exact h5x
    · intro hone
      simp only [List.length_cons] at hone
      have hr2 : rest2.length = 0 := by omega
      rw [hlen_words, hr2] at hlenN
      show s.start + count - 64 ≤ s.«end»
      omega
    · show s.len - (count : Int) =
        (((w1 :: rest2).length : Int) - 1) * 64 + (s.«end» : Int) -
          ((s.start + count - 64 : Nat) : Int)
      simp only [List.length_cons]
      rw [h7, hlen_words]
      push_cast
      omega
    · rw [nbits_mk, hnb, hlen_words]
      simp only [List.length_cons]
      omega
    · rw [val_mk]
      unfold val
      rw [hw, hr]
      have hps : (2 : Nat) ^ (s.start + count) = 2 ^ 64 * 2 ^ (s.start + count - 64) := by
        rw [← Nat.pow_add]
        congr 1
        omega
      rw [Nat.shiftRight_eq_div_pow, Nat.shiftRight_eq_div_pow, Nat.div_div_eq_div_mul,
        ← Nat.pow_add, hps, ← Nat.div_div_eq_div_mul]
      congr 1
      show wordsVal (w1 :: rest2) = (w0 + M64 * wordsVal (w1 :: rest2)) / 2 ^ 64
      rw [show ((2 : Nat) ^ 64) = M64 from rfl, Nat.mul_comm M64,
        Nat.add_mul_div_right _ _ (show (0 : Nat) < M64 from Nat.two_pow_pos 64),
        Nat.div_eq_of_lt hw0lt, Nat.zero_add]
    · show (w0 >>> s.start ||| (w1 <<< (64 - s.start)) % M64) &&& (2 ^ count - 1) =
        val s % 2 ^ count
      have hupper : (w1 <<< (64 - s.start)) % M64 =
          w1 % 2 ^ s.start * 2 ^ (64 - s.start) := by
        rw [Nat.shiftLeft_eq, ← hMsplit,
          Nat.mul_comm (2 ^ (64 - s.start)) (2 ^ s.start), Nat.mul_mod_mul_right]
      have hlower_lt : w0 >>> s.start < 2 ^ (64 - s.start) := by
        rw [Nat.shiftRight_eq_div_pow, Nat.div_lt_iff_lt_mul (Nat.two_pow_pos _), hMsplit]
        exact hw0lt
      have hpc : (2 : Nat) ^ (s.start + count - 64) * 2 ^ (64 - s.start) = 2 ^ count := by
        rw [← Nat.pow_add]
        congr 1
        omega
      have hkey : ∀ x : Nat,
          (w0 / 2 ^ s.start + x * 2 ^ (64 - s.start)) % 2 ^ count =
          (w0 / 2 ^ s.start + x % 2 ^ (s.start + count - 64) * 2 ^ (64 - s.start)) %
            2 ^ count := by
        intro x
        conv_lhs =>
          rw [← Nat.div_add_mod x (2 ^ (s.start + count - 64)),
            show (2 ^ (s.start + count - 64) * (x / 2 ^ (s.start + count - 64)) +
                x % 2 ^ (s.start + count - 64)) * 2 ^ (64 - s.start) =
              x % 2 ^ (s.start + count - 64) * 2 ^ (64 - s.start) +
                x / 2 ^ (s.start + count - 64) *
                  (2 ^ (s.start + count - 64) * 2 ^ (64 - s.start)) by ring,
            hpc, ← Nat.add_assoc]
        rw [Nat.add_mul_mod_self_right]
      have hm1 : w1 % 2 ^ s.start % 2 ^ (s.start + count - 64) =
          w1 % 2 ^ (s.start + count - 64) :=
        Nat.mod_mod_of_dvd _ (pow_dvd_pow 2 (by omega))
      have hm2 : wordsVal (w1 :: rest2) % 2 ^ (s.start + count - 64) =
          w1 % 2 ^ (s.start + count - 64) := by
        show (w1 + M64 * wordsVal rest2) % 2 ^ (s.start + count - 64) = _
        rw [show M64 * wordsVal rest2 =
            wordsVal rest2 * 2 ^ (64 - (s.start + count - 64)) *
              2 ^ (s.start + count - 64) by
          unfold M64
          rw [Nat.mul_assoc, ← Nat.pow_add,
            show 64 - (s.start + count - 64) + (s.start + count - 64) = 64 by omega]
          ring]
        rw [Nat.add_mul_mod_self_right]
      rw [hupper, lor_eq_add _ _ hlower_lt, and_two_pow_sub_one,
        Nat.shiftRight_eq_div_pow, hval, hr, hkey (w1 % 2 ^ s.start),
        hkey (wordsVal (w1 :: rest2)), hm1, hm2]
  · -- the read stays inside the first word
    have hnc : s.start + count < 64 := by omega
    have hout : s.delete count =
        ((w0 >>> s.start) &&& (2 ^ count - 1),
         { s with start := s.start + count, len := s.len - count }) := by
      simp only [delete]
      rw [hmask, if_neg hcase, hw]
      simp only [List.headD_cons]
    rw [hout]
    refine ⟨⟨h1, by show s.start + count < 64; omega, h3, h4, h5, ?_, ?_⟩,
      rfl, ?_, ?_, ?_⟩
    · intro hone
      have hone2 : s.words.length = 1 := hone
      have h6x := h6 hone2
      rw [hone2] at hlenN
      show s.start + count ≤ s.«end»
      omega
    · show s.len - (count : Int) = ((s.words.length : Int) - 1) * 64 + (s.«end» : Int) -
        ((s.start + count : Nat) : Int)
      rw [h7]
      push_cast
      omega
    · rw [show nbits { s with start := s.start + count, len := s.len - (count : Int) } =
          64 * (s.words.length - 1) + s.«end» - (s.start + count) from rfl, hnb]
      omega
    · rw [show val { s with start := s.start + count, len := s.len - (count : Int) } =
          wordsVal s.words >>> (s.start + count) from rfl]
      unfold val
      rw [Nat.shiftRight_eq_div_pow, Nat.shiftRight_eq_div_pow, Nat.div_div_eq_div_mul,
        ← Nat.pow_add]
    · show (w0 >>> s.start) &&& (2 ^ count - 1) = val s % 2 ^ count
      rw [and_two_pow_sub_one, Nat.shiftRight_eq_div_pow, hval]
      conv_rhs =>
        rw [show wordsVal rest * 2 ^ (64 - s.start) =
            wordsVal rest * 2 ^ (64 - s.start - count) * 2 ^ count by
          rw [Nat.mul_assoc, ← Nat.pow_add,
            show 64 - s.start - count + count = 64 - s.start by omega],
          Nat.add_mul_mod_self_right]

end BitString

theorem mod_div_recombine (x e : Nat) (he : e ≤ 64) :
    x % 2 ^ (64 - e) * 2 ^ e + M64 * (x / 2 ^ (64 - e)) = x * 2 ^ e := by
  have hqe : 2 ^ (64 - e) * 2 ^ e = M64 := by
    rw [← Nat.pow_add]
    unfold M64
    congr 1
    omega
  rw [← hqe]
  calc x % 2 ^ (64 - e) * 2 ^ e + 2 ^ (64 - e) * 2 ^ e * (x / 2 ^ (64 - e))
      = (x % 2 ^ (64 - e) + 2 ^ (64 - e) * (x / 2 ^ (64 - e))) * 2 ^ e := by ring
  _ = x * 2 ^ e := by rw [Nat.mod_add_div]

theorem div_64_sub_lt {x e : Nat} (hx : x < M64) (he : e ≤ 64) :
    x / 2 ^ (64 - e) < 2 ^ e := by
  rw [Nat.div_lt_iff_lt_mul (Nat.two_pow_pos _), ← Nat.pow_add,
    show e + (64 - e) = 64 by omega]
  exact hx

theorem rotl64_lt {x e : Nat} (hx : x < M64) (he : e < 64) : rotl64 x e < M64 := by
  rw [rotl64_eq hx he]
  have h1 : x % 2 ^ (64 - e) < 2 ^ (64 - e) := Nat.mod_lt _ (Nat.two_pow_pos _)
  have h2 : x / 2 ^ (64 - e) < 2 ^ e := div_64_sub_lt hx (by omega)
  have hqe : 2 ^ (64 - e) * 2 ^ e = M64 := by
    rw [← Nat.pow_add]
    unfold M64
    congr 1
    omega
  calc x % 2 ^ (64 - e) * 2 ^ e + x / 2 ^ (64 - e)
      < x % 2 ^ (64 - e) * 2 ^ e + 2 ^ e := by omega
  _ = (x % 2 ^ (64 - e) + 1) * 2 ^ e := by ring
  _ ≤ 2 ^ (64 - e) * 2 ^ e := Nat.mul_le_mul_right _ (by omega)
  _ = M64 := hqe

theorem rotl64_and_high {x e : Nat} (hx : x < M64) (he : e < 64) :
    rotl64 x e &&& (M64 - 2 ^ e) = x % 2 ^ (64 - e) * 2 ^ e := by
  rw [and_high_mask (rotl64_lt hx he) (by omega), rotl64_eq hx he, Nat.add_comm,
    Nat.add_mul_div_right _ _ (Nat.two_pow_pos e),
    Nat.div_eq_of_lt (div_64_sub_lt hx (by omega)), Nat.zero_add]
  exact Nat.mul_comm _ _

theorem rotl64_and_low {x e : Nat} (hx : x < M64) (he : e < 64) :
    rotl64 x e &&& (2 ^ e - 1) = x / 2 ^ (64 - e) := by
  rw [and_two_pow_sub_one, rotl64_eq hx he, Nat.add_comm, Nat.add_mul_mod_self_right,
    Nat.mod_eq_of_lt (div_64_sub_lt hx (by omega))]

namespace BitString

/-- The word-comparison loop of `PartialEq::eq`, characterized numerically:
when it succeeds, the compared words of the second buffer are exactly the
first buffer's words shifted up by `offset` bits, with the incoming carry
`ov` below and the outgoing carry `ov2` above. -/
theorem eqLoop_spec (offset : Nat) (hoff : offset < 64) :
    ∀ (ws vs : List Nat) (ov ov2 : Nat), ws.length ≤ vs.length →
      (∀ w ∈ ws, w < M64) → ov < 2 ^ offset →
      eqLoop offset (ws.zip vs) ov = some ov2 →
      wordsVal (vs.take ws.length) + M64 ^ ws.length * ov2 =
        ov + wordsVal ws * 2 ^ offset ∧ ov2 < 2 ^ offset := by
  intro ws
  induction ws with
  | nil =>
    intro vs ov ov2 _ _ hov heq
    simp only [List.zip_nil_left, eqLoop, Option.some.injEq] at heq
    subst heq
    refine ⟨?_, hov⟩
    simp [wordsVal]
  | cons w ws ih =>
    intro vs ov ov2 hlen hmem hov heq
    obtain ⟨v, vs', rfl⟩ : ∃ v vs', vs = v :: vs' := by
      cases vs with
      | nil => simp at hlen
      | cons x t => exact ⟨x, t, rfl⟩
    have hwlt : w < M64 := hmem w (by simp)
    rw [List.zip_cons_cons] at heq
    simp only [eqLoop] at heq
    rw [show (1 <<< offset) - 1 = 2 ^ offset - 1 by rw [Nat.shiftLeft_eq, Nat.one_mul],
      UMAX_xor_low_mask (by omega)] at heq
    by_cases hne : ov ||| (rotl64 w offset &&& (M64 - 2 ^ offset)) ≠ v
    · rw [if_pos hne] at heq
      simp at heq
    · rw [if_neg hne] at heq
      push_neg at hne
      have hdivlt : w / 2 ^ (64 - offset) < 2 ^ offset := div_64_sub_lt hwlt (by omega)
      rw [rotl64_and_high hwlt hoff, lor_eq_add _ _ hov] at hne
      rw [rotl64_and_low hwlt hoff] at heq
      obtain ⟨ihE, ihlt⟩ := ih vs' (w / 2 ^ (64 - offset)) ov2 (by simpa using hlen)
        (fun x hx => hmem x (by simp [hx])) hdivlt heq
      refine ⟨?_, ihlt⟩
      have hkey := mod_div_recombine w offset (by omega)
      calc wordsVal ((v :: vs').take (w :: ws).length) + M64 ^ (w :: ws).length * ov2
          = v + M64 * (wordsVal (vs'.take ws.length) + M64 ^ ws.length * ov2) := by
            simp only [List.length_cons, List.take_succ_cons]
            show v + M64 * wordsVal (vs'.take ws.length) + M64 ^ (ws.length + 1) * ov2 = _
            rw [pow_succ]
            ring
      _ = v + M64 * (w / 2 ^ (64 - offset) + wordsVal ws * 2 ^ offset) := by rw [ihE]
      _ = ov + (w % 2 ^ (64 - offset) * 2 ^ offset + M64 * (w / 2 ^ (64 - offset))) +
            M64 * wordsVal ws * 2 ^ offset := by
            rw [← hne]
            ring
      _ = ov + w * 2 ^ offset + M64 * wordsVal ws * 2 ^ offset := by rw [hkey]
      _ = ov + wordsVal (w :: ws) * 2 ^ offset := by
            show _ = ov + (w + M64 * wordsVal ws) * 2 ^ offset
            ring

/-- Soundness of the `PartialEq::eq` body for `a.start ≤ b.start`: a
successful comparison means the two buffers hold the same live content. -/
theorem eqBody_sound {a b : BitString} (ha : WF a) (hb : WF b)
    (hlen : a.len = b.len) (hst : a.start ≤ b.start) (heq : eqBody a b = true) :
    a.as_list = b.as_list := by
  have hanb := ha.len_eq_nbits
  have hbnb := hb.len_eq_nbits
  have hasl := ha.start_le
  have hbsl := hb.start_le
  have hWSlt := wordsVal_lt_of_WF ha
  have hnbeq : nbits a = nbits b := by omega
  have ha' := ha
  have hb' := hb
  obtain ⟨ha1, ha2, ha3, ha4, ha5, ha6, ha7⟩ := ha'
  obtain ⟨hb1, hb2, hb3, hb4, hb5, hb6, hb7⟩ := hb'
  have hna : 0 < a.words.length := List.length_pos.mpr ha1
  have hnb1 : 0 < b.words.length := List.length_pos.mpr hb1
  simp only [eqBody] at heq
  set offset := b.start - a.start with hoffdef
  have hoff64 : offset < 64 := by omega
  have hnbeq2 : 64 * (a.words.length - 1) + a.«end» - a.start =
      64 * (b.words.length - 1) + b.«end» - b.start := hnbeq
  have hcases : (b.words.length = a.words.length ∧ b.«end» = a.«end» + offset) ∨
      (b.words.length = a.words.length + 1 ∧ b.«end» + 64 = a.«end» + offset) := by
    omega
  have hmaskeq : (1 <<< offset) - 1 = 2 ^ offset - 1 := by
    rw [Nat.shiftLeft_eq, Nat.one_mul]
  rw [hmaskeq] at heq
  have hov0lt : b.words.headD 0 &&& (2 ^ offset - 1) < 2 ^ offset := by
    rw [and_two_pow_sub_one]
    exact Nat.mod_lt _ (Nat.two_pow_pos _)
  rcases hloop : eqLoop offset (a.words.zip b.words)
      (b.words.headD 0 &&& (2 ^ offset - 1)) with _ | ov2
  · rw [hloop] at heq
    simp at heq
  · rw [hloop] at heq
    have htail : a.words.length < b.words.length →
        b.words.getLastD 0 &&& (2 ^ offset - 1) = ov2 := by
      intro hlt
      by_contra hne
      apply hne
      rw [and_two_pow_sub_one, List.getLastD_eq_getLast?]
      simpa [hlt] using heq
    have hmn : a.words.length ≤ b.words.length := by
      rcases hcases with ⟨hm, _⟩ | ⟨hm, _⟩ <;> omega
    obtain ⟨hE, hov2lt⟩ := eqLoop_spec offset hoff64 a.words b.words _ ov2 hmn ha4
      hov0lt hloop
  -- in both word-count cases the whole second buffer equals the carry plus
  -- the shifted first buffer
    suffices hfin : wordsVal b.words =
        (b.words.headD 0 &&& (2 ^ offset - 1)) + wordsVal a.words * 2 ^ offset by
      have hdiv : wordsVal b.words / 2 ^ offset = wordsVal a.words := by
        rw [hfin, Nat.add_mul_div_right _ _ (Nat.two_pow_pos offset),
          Nat.div_eq_of_lt hov0lt, Nat.zero_add]
      have hveq : val b = val a := by
        unfold val
        rw [Nat.shiftRight_eq_div_pow, Nat.shiftRight_eq_div_pow,
          show b.start = offset + a.start by omega, Nat.pow_add,
          ← Nat.div_div_eq_div_mul, hdiv]
      rw [as_list_eq ha, as_list_eq hb, hnbeq, hveq]
    rcases hcases with ⟨hm, he⟩ | ⟨hm, he⟩
    · -- equal word counts: the outgoing carry must be zero
      have htake : b.words.take a.words.length = b.words := by
        rw [← hm, List.take_length]
      rw [htake] at hE
      have hbound : wordsVal a.words * 2 ^ offset <
          2 ^ (64 * (a.words.length - 1) + a.«end» + offset) := by
        rw [Nat.pow_add]
        exact Nat.mul_lt_mul_of_lt_of_le hWSlt (Nat.le_refl _) (Nat.two_pow_pos _)
      have hov2z : ov2 = 0 := by
        by_contra hnz
        have hP : M64 ^ a.words.length ≤ M64 ^ a.words.length * ov2 :=
          Nat.le_mul_of_pos_right _ (by omega)
        have hMn : 2 ^ offset + 2 ^ (64 * (a.words.length - 1) + a.«end» + offset) ≤
            M64 ^ a.words.length := by
          have hexp : 64 * (a.words.length - 1) + a.«end» + offset ≤
              64 * a.words.length - 1 := by omega
          have hx1 : (2 : Nat) ^ offset ≤ 2 ^ 63 :=
            Nat.pow_le_pow_right (by norm_num) (by omega)
          have hx2 : (2 : Nat) ^ (64 * (a.words.length - 1) + a.«end» + offset) ≤
              2 ^ (64 * a.words.length - 1) :=
            Nat.pow_le_pow_right (by norm_num) hexp
          have hx3 : (2 : Nat) ^ 63 ≤ 2 ^ (64 * a.words.length - 1) :=
            Nat.pow_le_pow_right (by norm_num) (by omega)
          have hx4 : (2 : Nat) ^ (64 * a.words.length - 1) +
              2 ^ (64 * a.words.length - 1) = M64 ^ a.words.length := by
            have h2 : (2 : Nat) ^ (64 * a.words.length - 1) * 2 =
                2 ^ (64 * a.words.length) := by
              rw [← pow_succ]
              congr 1
              omega
            unfold M64
            rw [← Nat.pow_mul]
            omega
          omega
        omega
      rw [hov2z, Nat.mul_zero, Nat.add_zero] at hE
      exact hE
    · -- one extra word in the second buffer: the carry is its last word
      have htake : b.words.take a.words.length = b.words.dropLast := by
        rw [List.dropLast_eq_take, hm]
        simp
      rw [htake] at hE
      have hlt : a.words.length < b.words.length := by omega
      have htl := htail hlt
      have hblast_lt : b.words.getLastD 0 < 2 ^ offset := by
        calc b.words.getLastD 0 < 2 ^ b.«end» := hb5
        _ ≤ 2 ^ offset := Nat.pow_le_pow_right (by norm_num) (by omega)
      have hblast : b.words.getLastD 0 = ov2 := by
        rw [← htl, and_two_pow_sub_one, Nat.mod_eq_of_lt hblast_lt]
      have hdll : b.words.dropLast.length = a.words.length := by
        rw [List.length_dropLast, hm]
        omega
      conv_lhs => rw [← dropLast_append_getLastD hb1]
      rw [wordsVal_concat, hdll, hblast]
      exact hE

/-- Soundness of `PartialEq::eq` on well-formed buffers: `eq` returning
`true` implies the materialized lists are identical. -/
theorem eq_sound {a b : BitString} (ha : WF a) (hb : WF b) (heq : eq a b = true) :
    a.as_list = b.as_list := by
  unfold eq at heq
  by_cases hl : a.len ≠ b.len
  · rw [if_pos hl] at heq
    simp at heq
  · rw [if_neg hl] at heq
    push_neg at hl
    by_cases hs : b.start < a.start
    · rw [if_pos hs] at heq
      exact (eqBody_sound hb ha hl.symm (by omega) heq).symm
    · rw [if_neg hs] at heq
      exact eqBody_sound ha hb hl (by omega) heq

end BitString

theorem natToList_headD {v k : Nat} (h : 0 < k) :
    (natToList v k).headD false = v.testBit 0 := by
  obtain ⟨j, rfl⟩ : ∃ j, k = j + 1 := ⟨k - 1, by omega⟩
  unfold natToList
  rw [List.range_succ_eq_map]
  simp

namespace BitString

/-- `BitString::evolve` on a well-formed buffer of cached length below 3
halts with no mutation whatsoever. -/
theorem evolve_halt {s : BitString} (hlen : s.len < 3) : s.evolve = (true, s) := by
  simp only [evolve]
  rw [if_pos hlen]

/-- `BitString::evolve` on a well-formed buffer of length at least 3
applies the tag rule: it continues, stays well-formed, moves the cached
length by `-1` or `+1`, and the materialized list loses its first 3
symbols and gains the production selected by the first symbol. -/
theorem evolve_spec {s : BitString} (h : WF s) (hlen : (3 : Int) ≤ s.len) :
    (s.evolve).1 = false ∧ WF (s.evolve).2 ∧
    ((s.evolve).2.len = s.len - 3 + 2 ∨ (s.evolve).2.len = s.len - 3 + 4) ∧
    (s.evolve).2.as_list = s.as_list.drop 3 ++
      (if s.as_list.headD false then [true, true, false, true] else [false, false]) := by
  have hlnb := h.len_eq_nbits
  have hlen3 : 3 ≤ nbits s := by omega
  obtain ⟨hWF1, hlen1, hnb1, hval1, hret⟩ := delete_spec 3 h (by norm_num) (by norm_num) hlen3
  have hvallt1 : val (s.delete 3).2 < 2 ^ nbits (s.delete 3).2 := val_lt hWF1
  have hbit : (s.delete 3).1 &&& 1 = val s % 2 := by
    rw [hret, Nat.and_one_is_mod, Nat.mod_mod_of_dvd _ (by norm_num : (2 : Nat) ∣ 2 ^ 3)]
  have hdrop : s.as_list.drop 3 = natToList (val (s.delete 3).2) (nbits s - 3) := by
    rw [as_list_eq h, natToList_drop _ _ _ hlen3, hval1, Nat.shiftRight_eq_div_pow]
  have hhead : s.as_list.headD false = decide (val s % 2 = 1) := by
    rw [as_list_eq h, natToList_headD (by omega), Nat.testBit_zero]
  have hev : s.evolve = if ((s.delete 3).1 &&& 1 == 0) = true then
      (false, (s.delete 3).2.append 0 2) else (false, (s.delete 3).2.append 11 4) := by
    simp only [evolve]
    rw [if_neg (by omega : ¬s.len < 3)]
  by_cases hb : val s % 2 = 0
  · obtain ⟨hWF2, _, hlen2, hnb2, hval2⟩ := append_spec 0 2 hWF1 (by norm_num) (by norm_num)
    have hcond : ((s.delete 3).1 &&& 1 == 0) = true := by
      rw [hbit, hb]
      rfl
    rw [hev, if_pos hcond]
    refine ⟨rfl, hWF2, Or.inl (by rw [hlen2, hlen1]; push_cast; ring), ?_⟩
    rw [as_list_eq hWF2, hval2, hnb2, natToList_add _ _ _ hvallt1, hdrop, ← hnb1, hhead,
      hb, if_neg (by decide)]
    rfl
  · have hb1 : val s % 2 = 1 := by omega
    obtain ⟨hWF2, _, hlen2, hnb2, hval2⟩ := append_spec 11 4 hWF1 (by norm_num) (by norm_num)
    have hcond : ¬(((s.delete 3).1 &&& 1 == 0) = true) := by
      rw [hbit, hb1]
      decide
    rw [hev, if_neg hcond]
    refine ⟨rfl, hWF2, Or.inr (by rw [hlen2, hlen1]; push_cast; ring), ?_⟩
    rw [as_list_eq hWF2, hval2, hnb2, natToList_add _ _ _ hvallt1, hdrop, ← hnb1, hhead,
      hb1, if_pos (by decide)]
    rfl

/-- On a well-formed buffer whose length fits `usize`, the derived
`length()` of the uncached variant equals the live-bit count. -/
theorem length_eq_nbits {s : BitString} (h : WF s) (hmem : s.len < (2 : Int) ^ 64) :
    length s = nbits s := by
  have h7 := h.2.2.2.2.2.2
  have hlnb := h.len_eq_nbits
  unfold length usizeOfInt
  rw [← h7, hlnb, Int.emod_eq_of_lt (by omega) (by omega), Int.toNat_natCast]

/-- The two `evolve` variants agree on well-formed buffers whose length
fits `usize`. -/
theorem evolveD_eq_evolve {s : BitString} (h : WF s) (hmem : s.len < (2 : Int) ^ 64) :
    s.evolveD = s.evolve := by
  have hlnb := h.len_eq_nbits
  simp only [evolveD, evolve]
  rw [length_eq_nbits h hmem]
  by_cases hc : nbits s < 3
  · have hc2 : s.len < 3 := by omega
    rw [if_pos hc, if_pos hc2]
  · have hc2 : ¬s.len < 3 := by omega
    rw [if_neg hc, if_neg hc2]

/-- The empty buffer is well-formed. -/
theorem new_WF : WF new := by decide

/-- Appending 3-bit blocks in a fold over the input, for any block
encoding `f` whose blocks are the `[b, 0, 0]` expansions: well-formedness
is preserved, the length grows by 3 per input boolean, and the
materialized list gains the expansions in order. -/
theorem append3_fold (f : Bool → Nat) (hf8 : ∀ b, f b < 2 ^ 3)
    (hf3 : ∀ b, natToList (f b) 3 = [b, false, false])
    (input : List Bool) (acc : BitString) (hacc : WF acc) :
    WF (input.foldl (fun this b => this.append (f b) 3) acc) ∧
    (input.foldl (fun this b => this.append (f b) 3) acc).len =
      acc.len + 3 * input.length ∧
    (input.foldl (fun this b => this.append (f b) 3) acc).as_list =
      acc.as_list ++ input.flatMap (fun b => [b, false, false]) := by
  induction input generalizing acc with
  | nil => exact ⟨hacc, by simp, by simp⟩
  | cons b bs ih =>
    obtain ⟨hWF1, _, hlen1, hnb1, hval1⟩ := append_spec (f b) 3 hacc (by norm_num) (hf8 b)
    have hstep : (acc.append (f b) 3).as_list = acc.as_list ++ [b, false, false] := by
      rw [as_list_eq hWF1, hval1, hnb1, natToList_add _ _ _ (val_lt hacc), as_list_eq hacc,
        hf3 b]
    obtain ⟨ihWF, ihlen, ihlist⟩ := ih (acc.append (f b) 3) hWF1
    refine ⟨?_, ?_, ?_⟩
    · simp only [List.foldl_cons]
      exact ihWF
    · simp only [List.foldl_cons, List.length_cons]
      rw [ihlen, hlen1]
      push_cast
      ring
    · simp only [List.foldl_cons, List.flatMap_cons]
      rw [ihlist, hstep, List.append_assoc]

/-- `BitString::new_decompressed` builds a well-formed buffer of length
`3 * |input|` whose materialized list is the flattened 3-symbol expansion
of the input. -/
theorem new_decompressed_spec (input : List Bool) :
    WF (new_decompressed input) ∧
    (new_decompressed input).len = 3 * (input.length : Int) ∧
    (new_decompressed input).as_list = input.flatMap (fun b => [b, false, false]) := by
  obtain ⟨h1, h2, h3⟩ := append3_fold (fun b => match b with | false => 0 | true => 1)
    (by intro b; cases b <;> norm_num) (by intro b; cases b <;> rfl) input new new_WF
  refine ⟨h1, ?_, ?_⟩
  · have h2x : (new_decompressed input).len = new.len + 3 * (input.length : Int) := h2
    rw [h2x]
    show (0 : Int) + 3 * (input.length : Int) = 3 * (input.length : Int)
    ring
  · have h3x : (new_decompressed input).as_list =
        new.as_list ++ input.flatMap (fun b => [b, false, false]) := h3
    rw [h3x, show (new : BitString).as_list = ([] : List Bool) from rfl, List.nil_append]

end BitString

/-! ## The lookup table and the `system` variant's invariants -/

namespace BitString

/-- The materialized list of a well-formed buffer has exactly `nbits s`
elements. -/
theorem as_list_length {s : BitString} (h : WF s) : s.as_list.length = nbits s := by
  rw [as_list_eq h, natToList_length]

/-- The per-key-bit state update of a `LUT` entry (the loop body of
`array::from_fn`). -/
def lutStep (key : Nat) (bl : Nat × Nat) (i : Nat) : Nat × Nat :=
  if (key >>> i) &&& 1 == 1 then (bl.1 ||| (11 <<< bl.2), bl.2 + 4) else (bl.1, bl.2 + 2)

theorem lutEntry_eq_lutStep (T key : Nat) :
    lutEntry T key =
      ((List.range T).foldl (lutStep key) (0, 0)).1 |||
        (((List.range T).foldl (lutStep key) (0, 0)).2 <<< 48) := rfl

/-- The fold building a `LUT` entry keeps the accumulated bits below the
accumulated length, which grows by 2 or 4 per key bit. -/
theorem lutStep_fold_bounds (key : Nat) :
    ∀ (l : List Nat) (b0 l0 : Nat), b0 < 2 ^ l0 →
      (l.foldl (lutStep key) (b0, l0)).1 < 2 ^ (l.foldl (lutStep key) (b0, l0)).2 ∧
      l0 + 2 * l.length ≤ (l.foldl (lutStep key) (b0, l0)).2 ∧
      (l.foldl (lutStep key) (b0, l0)).2 ≤ l0 + 4 * l.length := by
  intro l
  induction l with
  | nil =>
    intro b0 l0 hb
    exact ⟨hb, by simp, by simp⟩
  | cons i rest ih =>
    intro b0 l0 hb
    simp only [List.foldl_cons, List.length_cons]
    by_cases hc : ((key >>> i) &&& 1 == 1) = true
    · have hstep : lutStep key (b0, l0) i = (b0 ||| (11 <<< l0), l0 + 4) := by
        unfold lutStep
        rw [if_pos hc]
      rw [hstep]
      have hb1 : b0 ||| (11 <<< l0) < 2 ^ (l0 + 4) := by
        rw [Nat.shiftLeft_eq, lor_eq_add 11 l0 hb]
        have h16 : (2 : Nat) ^ (l0 + 4) = 16 * 2 ^ l0 := by
          rw [pow_add]
          ring
        omega
      obtain ⟨ih1, ih2, ih3⟩ := ih (b0 ||| (11 <<< l0)) (l0 + 4) hb1
      exact ⟨ih1, by omega, by omega⟩
    · have hstep : lutStep key (b0, l0) i = (b0, l0 + 2) := by
        unfold lutStep
        rw [if_neg hc]
      rw [hstep]
      have hb1 : b0 < 2 ^ (l0 + 2) :=
        lt_of_lt_of_le hb (Nat.pow_le_pow_right (by norm_num) (by omega))
      obtain ⟨ih1, ih2, ih3⟩ := ih b0 (l0 + 2) hb1
      exact ⟨ih1, by omega, by omega⟩

/-- A packed `LUT` entry: the low 48 bits (the production bits) fit below
the appended length recorded in the high bits, which lies between `2 T` and
`4 T` (both tables use `T ≤ 12`, so the length also fits one append). -/
theorem lutEntry_spec (T key : Nat) (hT : T ≤ 12) :
    lutEntry T key &&& 0xFFFFFFFFFFFF < 2 ^ (lutEntry T key >>> 48) ∧
    2 * T ≤ lutEntry T key >>> 48 ∧ lutEntry T key >>> 48 ≤ 4 * T := by
  obtain ⟨h1, h2, h3⟩ := lutStep_fold_bounds key (List.range T) 0 0 (by norm_num)
  rw [List.length_range] at h2 h3
  set p := (List.range T).foldl (lutStep key) (0, 0) with hp
  have hp48 : p.1 < 2 ^ 48 :=
    lt_of_lt_of_le h1 (Nat.pow_le_pow_right (by norm_num) (by omega))
  have hE : lutEntry T key = p.1 + p.2 * 2 ^ 48 := by
    rw [lutEntry_eq_lutStep, ← hp, Nat.shiftLeft_eq, lor_eq_add p.2 48 hp48]
  have hmask : (0xFFFFFFFFFFFF : Nat) = 2 ^ 48 - 1 := by norm_num
  have hlow : lutEntry T key &&& 0xFFFFFFFFFFFF = p.1 := by
    rw [hE, hmask, and_two_pow_sub_one, Nat.add_mul_mod_self_right, Nat.mod_eq_of_lt hp48]
  have hhigh : lutEntry T key >>> 48 = p.2 := by
    rw [hE, Nat.shiftRight_eq_div_pow, Nat.add_mul_div_right _ _ (Nat.two_pow_pos 48),
      Nat.div_eq_of_lt hp48, Nat.zero_add]
  rw [hlow, hhigh]
  exact ⟨h1, by omega, by omega⟩

/-- `BitString::evolve_preferred` of the `system` variant preserves
well-formedness under its `debug_assert` precondition `length() ≥ 33`, and
the resulting cached length is at least 22 (33 bits deleted, at least 22
appended). -/
theorem evolve_preferred11_spec {s : BitString} (h : WF s) (hlen : (33 : Int) ≤ s.len) :
    WF (evolve_preferred11 s) ∧ (22 : Int) ≤ (evolve_preferred11 s).len := by
  have hlnb := h.len_eq_nbits
  have h33 : 33 ≤ nbits s := by omega
  obtain ⟨hWFd, hlend, hnbd, hvald, hretd⟩ :=
    delete_spec 33 h (by norm_num) (by norm_num) h33
  obtain ⟨hbits, hL2, hL4⟩ :=
    lutEntry_spec 11 (extractKey 11 (s.delete 33).1) (by norm_num)
  obtain ⟨hWFa, hsta, hlena, hnba, hvala⟩ :=
    append_spec (lutEntry 11 (extractKey 11 (s.delete 33).1) &&& 0xFFFFFFFFFFFF)
      (lutEntry 11 (extractKey 11 (s.delete 33).1) >>> 48) hWFd (by omega) hbits
  have hE : evolve_preferred11 s =
      (s.delete 33).2.append
        (lutEntry 11 (extractKey 11 (s.delete 33).1) &&& 0xFFFFFFFFFFFF)
        (lutEntry 11 (extractKey 11 (s.delete 33).1) >>> 48) := rfl
  rw [hE]
  refine ⟨hWFa, ?_⟩
  rw [hlena, hlend]
  omega

/-- The representation invariant of the packed `system` variant:
well-formedness (which ties the cached length to the derived live-bit
count), and a logically empty buffer holds exactly one word with
`start = end = 0`. -/
def Inv (s : BitString) : Prop :=
  WF s ∧ (s.len = 0 → s.words.length = 1 ∧ s.start = 0 ∧ s.«end» = 0)

instance (s : BitString) : Decidable (Inv s) := by
  unfold Inv
  infer_instance

/-- When `evolve` reports a halt, the buffer is untouched. -/
theorem evolve_break_eq {s : BitString} (hbrk : (s.evolve).1 = true) :
    (s.evolve).2 = s := by
  by_cases hlen : s.len < 3
  · rw [evolve_halt hlen]
  · exfalso
    simp only [evolve] at hbrk
    rw [if_neg hlen] at hbrk
    by_cases hc : ((s.delete 3).1 &&& 1 == 0) = true
    · rw [if_pos hc] at hbrk
      exact Bool.false_ne_true hbrk
    · rw [if_neg hc] at hbrk
      exact Bool.false_ne_true hbrk

/-- The constructed buffer satisfies the representation invariant. -/
theorem new_decompressed_Inv (input : List Bool) : Inv (new_decompressed input) := by
  obtain ⟨hWF, hlen, _⟩ := new_decompressed_spec input
  refine ⟨hWF, fun h0 => ?_⟩
  cases input with
  | nil => exact ⟨rfl, rfl, rfl⟩
  | cons b bs =>
    exfalso
    rw [hlen] at h0
    simp only [List.length_cons] at h0
    push_cast at h0
    omega

/-- One `evolve` step preserves the representation invariant. -/
theorem evolve_Inv {s : BitString} (h : Inv s) : Inv (s.evolve).2 := by
  by_cases hlen : s.len < 3
  · rw [evolve_halt hlen]
    exact h
  · obtain ⟨hflag, hWF, hlen2, hlist⟩ := evolve_spec h.1 (by omega)
    refine ⟨hWF, fun h0 => ?_⟩
    exfalso
    rcases hlen2 with h2 | h2 <;> omega

/-- A batched `evolve_preferred` step of the `system` variant preserves the
representation invariant under its precondition `length() ≥ 33`. -/
theorem evolve_preferred11_Inv {s : BitString} (h : Inv s) (hlen : (33 : Int) ≤ s.len) :
    Inv (evolve_preferred11 s) := by
  obtain ⟨hWF, h22⟩ := evolve_preferred11_spec h.1 hlen
  refine ⟨hWF, fun h0 => ?_⟩
  exfalso
  omega

/-- The batched multi-step driver of the `system` variant preserves the
representation invariant. -/
theorem sysEvolveMultiAux_Inv (fuel : Nat) :
    ∀ (s : BitString) (remaining k : Nat), Inv s →
      Inv (sysEvolveMultiAux s fuel remaining k).2 := by
  induction fuel with
  | zero =>
    intro s remaining k h
    exact h
  | succ n ih =>
    intro s remaining k h
    simp only [sysEvolveMultiAux]
    by_cases h0 : remaining = 0
    · rw [if_pos h0]
      exact h
    · rw [if_neg h0]
      by_cases hbig : 11 ≤ remaining ∧ (33 : Int) ≤ s.len
      · rw [if_pos hbig]
        exact ih _ _ _ (evolve_preferred11_Inv h hbig.2)
      · rw [if_neg hbig]
        rcases hev : s.evolve with ⟨fl, s1⟩
        cases fl
        · have h1 : Inv s1 := by
            have h2 := evolve_Inv h
            rw [hev] at h2
            exact h2
          show Inv (sysEvolveMultiAux s1 n (remaining - 1) (k + 1)).2
          exact ih _ _ _ h1
        · have h2 : s1 = s := by
            have h3 : (s.evolve).2 = s := evolve_break_eq (by rw [hev])
            rw [hev] at h3
            exact h3
          show Inv s1
          rw [h2]
          exact h

/-! ## The claims -/

set_option maxRecDepth 100000

/-- C1: the specification claims that evolving by `N` steps via the batched
path (`evolve_multi` with `evolve_preferred` and the lookup table) is
externally unobservable — same final content and halt point as `N` single
steps, including when the length is below `3 * 10` and the single-step
fallback is used.  REFUTED for the code: from the 3-bit buffer
`new_decompressed [true]` with `N = 10`, ten single `evolve` steps leave
the 5-symbol list `[1, 0, 1, 0, 0]` and no halt, but `evolve_multi` takes
the fallback loop of `evolve_preferred` and then — missing the early
return after that loop — falls through to `delete(30)` on a 6-bit buffer,
returning no halt with a corrupted buffer: its materialized list is empty
and its cached length is `1 - 3 = -2` bits below zero (a `usize`
underflow). -/
theorem C1_batching_observable_bug :
    (iterEvolve (new_decompressed [true]) 10).as_list =
      [true, false, true, false, false] ∧
    (evolve_multi (new_decompressed [true]) 10).1 = none ∧
    (evolve_multi (new_decompressed [true]) 10).2.as_list = [] ∧
    (evolve_multi (new_decompressed [true]) 10).2.len = -2 := by decide

/-- C2: on every sequence of length at least 3, one `evolve` removes
exactly the first 3 symbols and appends `[0, 0]` when the first removed
symbol is 0, `[1, 1, 0, 1]` when it is 1, the other two removed symbols
having no effect — in the naive representation (where the production
depends only on the first popped symbol, for any middle symbols and tail)
and in the packed representation (both `evolve` variants agree on
well-formed buffers whose length fits `usize`). -/
theorem C2_evolve_law :
    (∀ (first b2 b3 : Bool) (rest : List Bool),
      VecDequeBools.evolve (first :: b2 :: b3 :: rest) =
        (false, rest ++ if first then [true, true, false, true] else [false, false])) ∧
    (∀ s : BitString, WF s → (3 : Int) ≤ s.len →
      (s.evolve).1 = false ∧
      (s.evolve).2.as_list = s.as_list.drop 3 ++
        (if s.as_list.headD false then [true, true, false, true] else [false, false])) ∧
    (∀ s : BitString, WF s → s.len < (2 : Int) ^ 64 → s.evolveD = s.evolve) := by
  refine ⟨?_, ?_, ?_⟩
  · intro first b2 b3 rest
    cases first <;> rfl
  · intro s hWF hlen
    obtain ⟨h1, _, _, h4⟩ := evolve_spec hWF hlen
    exact ⟨h1, h4⟩
  · intro s hWF hmem
    exact evolveD_eq_evolve hWF hmem

/-- C3: the specification claims that a halting `evolve_multi(seq, N)`
reports the exact number of single steps applied before the halt, and in
particular that `[false]` evolved by 2 steps reports 1.  REFUTED for the
code: the single-step loop of the default `evolve_multi` returns
`Break(q * T + j)` where `j` also counts the failed attempt, so from
`new_decompressed [false]` — where exactly one step is applied (the second
attempt halts) — both representations report `Break(2)`. -/
theorem C3_halt_report_off_by_one :
    VecDequeBools.evolve_multi (VecDequeBools.new_decompressed [false]) 2 =
      (some 2, []) ∧
    VecDequeBools.evolve (VecDequeBools.new_decompressed [false]) =
      (false, [false, false]) ∧
    VecDequeBools.evolve [false, false] = (true, []) ∧
    (evolve_multi (new_decompressed [false]) 2).1 = some 2 := by decide

/-- C4 (amended): `PartialEq::eq` on packed buffers is sound — when it
returns `true` on well-formed states, the materialized symbol lists are
identical — but it is not complete: see `C4_eq_incomplete_cex` for two
reachable well-formed states with identical materialized lists on which it
returns `false`, because the word comparison also inspects dead bits below
`start`. -/
theorem C4_eq_sound_amended {a b : BitString} (ha : WF a) (hb : WF b)
    (heq : eq a b = true) : a.as_list = b.as_list :=
  eq_sound ha hb heq

/-- Witness for `C4_eq_sound_amended`: the two states of the repository's
equality test that differ in alignment (`append(0b1010, 4); delete(2)`
against `append(0b10, 2)`) compare equal, hence materialize alike. -/
theorem C4_eq_sound_witness :
    (((new.append 10 4).delete 2).2).as_list = (new.append 2 2).as_list :=
  C4_eq_sound_amended (by decide) (by decide) (by decide)

/-- Counterexample to the claimed completeness of `PartialEq::eq`: the
states reached after 4 and after 6 `evolve` steps from
`new_decompressed [true]` materialize the same list `[1, 0, 1, 0, 0]`,
yet compare unequal (their dead bits below `start` differ). -/
theorem C4_eq_incomplete_cex :
    (iterEvolve (new_decompressed [true]) 4).as_list =
      (iterEvolve (new_decompressed [true]) 6).as_list ∧
    eq (iterEvolve (new_decompressed [true]) 4)
      (iterEvolve (new_decompressed [true]) 6) = false := by decide

/-- C5 (amended): a sequence of length 0, 1 or 2 halts immediately on
`evolve`.  The packed representation indeed mutates nothing; the naive
representation, however, pops the available symbols before detecting the
shortage, so a deque of length 1 or 2 is left empty by the halting call
(see `C5_naive_halt_mutates_cex`). -/
theorem C5_halt_boundary_amended :
    (∀ s : BitString, s.len < 3 → s.evolve = (true, s)) ∧
    VecDequeBools.evolve [] = (true, []) ∧
    (∀ b : Bool, VecDequeBools.evolve [b] = (true, [])) ∧
    (∀ b c : Bool, VecDequeBools.evolve [b, c] = (true, [])) :=
  ⟨fun _ h => evolve_halt h, rfl, fun _ => rfl, fun _ _ => rfl⟩

/-- Counterexample to the claimed zero mutation at the halt boundary: the
naive `evolve` on the length-2 deque `[0, 0]` halts but empties the
deque. -/
theorem C5_naive_halt_mutates_cex :
    VecDequeBools.evolve [false, false] = (true, []) ∧
    (VecDequeBools.evolve [false, false]).2 ≠ [false, false] := by decide

/-- C6: after every public operation of the packed `system` variant —
construction, `evolve`, `evolve_preferred` (under its `debug_assert`
precondition `length() ≥ 33`), and the multi-step driver — the
representation invariant holds: the live-bit count (the materialized
list's length) equals `(wordCount - 1) * 64 + end - start`, that quantity
equals the cached length counter, the word list is never empty, and a
logically empty buffer holds exactly one word with `start = end = 0`. -/
theorem C6_packed_invariants :
    (∀ input : List Bool, Inv (new_decompressed input)) ∧
    (∀ s : BitString, Inv s → Inv (s.evolve).2) ∧
    (∀ s : BitString, Inv s → (33 : Int) ≤ s.len → Inv (evolve_preferred11 s)) ∧
    (∀ (s : BitString) (n : Nat), Inv s → Inv (sysEvolveMulti s n).2) ∧
    (∀ s : BitString, Inv s →
      (s.as_list.length : Int) =
        ((s.words.length : Int) - 1) * 64 + (s.«end» : Int) - (s.start : Int) ∧
      s.len = (s.as_list.length : Int) ∧
      s.words ≠ [] ∧
      (s.len = 0 → s.words.length = 1 ∧ s.start = 0 ∧ s.«end» = 0)) := by
  refine ⟨new_decompressed_Inv, fun s h => evolve_Inv h,
    fun s h hl => evolve_preferred11_Inv h hl,
    fun s n h => sysEvolveMultiAux_Inv n s n 0 h, ?_⟩
  intro s h
  have hlnb := h.1.len_eq_nbits
  have h7 := h.1.2.2.2.2.2.2
  have hlen := as_list_length h.1
  refine ⟨?_, ?_, h.1.1, h.2⟩
  · rw [hlen, ← hlnb, h7]
  · rw [hlen, ← hlnb]

/-- C7: construction never fails and is faithful for both representations:
the materialized list of the constructed sequence is the concatenation of
each input boolean's `[b, 0, 0]` expansion, in order (empty input
included). -/
theorem C7_construction_fidelity :
    (∀ input : List Bool,
      VecDequeBools.new_decompressed input =
        input.flatMap fun b => [b, false, false]) ∧
    (∀ input : List Bool,
      (new_decompressed input).as_list = input.flatMap fun b => [b, false, false]) :=
  ⟨fun _ => rfl, fun input => (new_decompressed_spec input).2.2⟩

/-- C8: the specification claims `delete(count)` on a buffer shorter than
`count` truncates the result and leaves the buffer empty (length 0, one
all-zero word, `start = end = 0`) without panic or overflow.  REFUTED for
the code: on the 1-bit buffer built by `new().append(0, 1)`, `delete(3)`
takes the non-crossing branch (`start + count < 64`), leaving
`start = 3 > end = 1` — not the empty configuration, and not well-formed —
while the cached length update `1 - 3` underflows `usize` (a panic in
debug builds); the uncached variant's derived `length()` of the same state
wraps to `2 ^ 64 - 2` instead of 0. -/
theorem C8_delete_beyond_length_bug :
    (new.append 0 1).delete 3 =
      (0, { words := [0], start := 3, «end» := 1, len := -2 }) ∧
    ¬ WF ((new.append 0 1).delete 3).2 ∧
    length ((new.append 0 1).delete 3).2 = 2 ^ 64 - 2 := by decide

/-- C9 (amended): appending `count` bits to the tail and then deleting
`count` bits from the head is not a round trip on a non-empty buffer — it
is a head-drop: the resulting list is the original list followed by the
appended bits, with the first `count` symbols removed, and the returned
word holds the first `count` bits of that combined string (so the original
state is recovered, and the appended bits returned, exactly when the
buffer was empty; see `C9_round_trip_cex`). -/
theorem C9_append_delete_amended {s : BitString} (bits count : Nat) (h : WF s)
    (h0 : 0 < count) (hc : count < 64) (hb : bits < 2 ^ count) :
    ((s.append bits count).delete count).2.as_list =
      (s.as_list ++ natToList bits count).drop count ∧
    ((s.append bits count).delete count).1 =
      (val s + bits * 2 ^ nbits s) % 2 ^ count := by
  obtain ⟨hWF1, hst1, hlen1, hnb1, hval1⟩ := append_spec bits count h (by omega) hb
  have hcle : count ≤ nbits (s.append bits count) := by
    rw [hnb1]
    omega
  obtain ⟨hWF2, hlen2, hnb2, hval2, hret⟩ := delete_spec count hWF1 h0 hc hcle
  constructor
  · rw [as_list_eq hWF2, hval2, hnb2, as_list_eq h,
      ← natToList_add bits (nbits s) count (val_lt h), ← hval1, ← hnb1,
      natToList_drop _ _ _ hcle, Nat.shiftRight_eq_div_pow]
  · rw [hret, hval1]

/-- Witness for `C9_append_delete_amended` on the empty buffer: appending
the 3 bits `0b101` and deleting 3 returns to the empty content and hands
back exactly the appended bits. -/
theorem C9_append_delete_witness :
    ((new.append 5 3).delete 3).2.as_list =
      (new.as_list ++ natToList 5 3).drop 3 ∧
    ((new.append 5 3).delete 3).1 = (val new + 5 * 2 ^ nbits new) % 2 ^ 3 :=
  C9_append_delete_amended 5 3 (by decide) (by decide) (by decide) (by decide)

/-- Counterexample to the claimed round trip on a non-empty buffer:
appending one bit to `[1, 0, 0]` and deleting one bit yields
`[0, 0, 1]`, not the original content. -/
theorem C9_round_trip_cex :
    (((new_decompressed [true]).append 1 1).delete 1).2.as_list =
      [false, false, true] ∧
    (new_decompressed [true]).as_list = [true, false, false] := by decide

/-- C10: `evolve_multi` with `n = 0` returns the continued signal and
leaves the sequence untouched, in the naive representation, the packed
representation with the default driver, and the packed `system` variant's
driver. -/
theorem C10_evolve_multi_zero :
    (∀ s : List Bool, VecDequeBools.evolve_multi s 0 = (none, s)) ∧
    (∀ s : BitString, evolve_multi s 0 = (none, s)) ∧
    (∀ s : BitString, sysEvolveMulti s 0 = (none, s)) :=
  ⟨fun _ => rfl, fun _ => rfl, fun _ => rfl⟩

end BitString

end PostTag
